import Mathlib

/-!
# bifrost-go: the tokeniser, the message packer and the feature names

A shallow embedding of `tokeniser/tokeniser.go`, `message/message.go` and the name lookup of
`features.go`.

* A Go `string` / `[]byte` is a `List Nat`; a value is a byte when it is below 256.
* The mutable `Tokeniser` struct becomes a record that every method takes and returns.
* The `io.Reader` behind a tokeniser is the finite script of the results of its successive
  `Read` calls on the one-byte buffer `bs[:]`; once the script is used up every further
  `Read` reports `io.EOF` (the behaviour of `bytes.Reader` and of a closed connection).
* The unbounded `for` loop of `Tokenise` is run with fuel; `Tokenise` supplies one more unit
  than the script has entries, which is always enough (`Tokenise_returns`).
* A Go panic is the result `none`.
-/

namespace Bifrost

/-! ## Go library functions used by the two packages -/

namespace unicode

/-- The constant `unicode.MaxASCII`. -/
def MaxASCII : Nat := 0x7F

/-- The constant `unicode.MaxLatin1`. -/
def MaxLatin1 : Nat := 0xFF

/-- The ranges of the table `unicode.White_Space` that lie above Latin-1. -/
def White_Space : List (Nat × Nat) :=
  [(0x1680, 0x1680), (0x2000, 0x200A), (0x2028, 0x2029), (0x202F, 0x202F),
   (0x205F, 0x205F), (0x3000, 0x3000)]

/-- The function `unicode.IsSpace`: Latin-1 runes are decided by a switch, the others by the
`White_Space` table. -/
def IsSpace (r : Nat) : Bool :=
  if r ≤ MaxLatin1 then
    r == 0x09 || r == 0x0A || r == 0x0B || r == 0x0C || r == 0x0D || r == 0x20
      || r == 0x85 || r == 0xA0
  else
    White_Space.any (fun rg => rg.1 ≤ r && r ≤ rg.2)

end unicode

namespace utf8

/-- The constant `utf8.RuneError`, U+FFFD. -/
def RuneError : Nat := 0xFFFD

/-- Lowest continuation byte. -/
def locb : Nat := 0x80

/-- Highest continuation byte. -/
def hicb : Nat := 0xBF

/-- The function `utf8.DecodeRuneInString` (the decoding a `range` loop over a string performs):
the first rune of `s` and its width in bytes. Ill-formed input, a string shorter than the
width its first byte announces included, gives `(RuneError, 1)`. The masks and shifts of the
Go code are written with `%`, `*` and `+`. -/
def DecodeRune : List Nat → Nat × Nat
  | [] => (RuneError, 0)
  | s0 :: rest =>
    if s0 < 0x80 then (s0, 1)
    else if s0 < 0xC2 ∨ 0xF4 < s0 then (RuneError, 1)
    else
      let sz : Nat := if s0 < 0xE0 then 2 else if s0 < 0xF0 then 3 else 4
      let lo : Nat := if s0 = 0xE0 then 0xA0 else if s0 = 0xF0 then 0x90 else locb
      let hi : Nat := if s0 = 0xED then 0x9F else if s0 = 0xF4 then 0x8F else hicb
      match rest with
      | [] => (RuneError, 1)
      | s1 :: r2 =>
        if s1 < lo ∨ hi < s1 then (RuneError, 1)
        else if sz ≤ 2 then ((s0 % 32) * 64 + s1 % 64, 2)
        else
          match r2 with
          | [] => (RuneError, 1)
          | s2 :: r3 =>
            if s2 < locb ∨ hicb < s2 then (RuneError, 1)
            else if sz ≤ 3 then ((s0 % 16) * 4096 + (s1 % 64) * 64 + s2 % 64, 3)
            else
              match r3 with
              | [] => (RuneError, 1)
              | s3 :: _ =>
                if s3 < locb ∨ hicb < s3 then (RuneError, 1)
                else ((s0 % 8) * 262144 + (s1 % 64) * 4096 + (s2 % 64) * 64 + s3 % 64, 4)

/-- The runes a `for _, c := range s` loop visits. The first argument counts the bytes still
to be stepped over because they belong to the rune decoded last. -/
def rangeFrom : Nat → List Nat → List Nat
  | _, [] => []
  | skip + 1, _ :: rest => rangeFrom skip rest
  | 0, s0 :: rest =>
    (DecodeRune (s0 :: rest)).1 :: rangeFrom ((DecodeRune (s0 :: rest)).2 - 1) rest

/-- The runes of a string, in the order `range` yields them. -/
def runes (s : List Nat) : List Nat := rangeFrom 0 s

end utf8

namespace strings

/-- The call `strings.ContainsRune(s, c)`. -/
def ContainsRune (s : List Nat) (c : Nat) : Bool := (utf8.runes s).contains c

/-- The call `strings.Replace(s, old, new, -1)` for a pattern `old` of a single byte: every
occurrence of the byte is replaced. -/
def ReplaceByte (s : List Nat) (old : Nat) (new : List Nat) : List Nat :=
  s.flatMap (fun b => if b = old then new else [b])

end strings

/-! ## package tokeniser -/

/-- The quoting modes of the protocol. -/
inductive quoteType
  | none
  | single
  | double
  deriving DecidableEq, Repr

/-- A Go `error` value as far as this package can tell them apart: `io.EOF` or another one. -/
inductive Error
  | EOF
  | other (code : Nat)
  deriving DecidableEq, Repr

/-- The outcome of one `reader.Read(bs[:])`: the count `n`, the byte left in `bs[0]` when
`n > 0`, and the error. -/
structure ReadResult where
  n : Nat
  b : Nat
  err : Option Error
  deriving DecidableEq, Repr

/-- The struct `Tokeniser`. -/
structure Tokeniser where
  inWord : Bool
  escapeNextChar : Bool
  currentQuoteType : quoteType
  word : List Nat
  words : List (List Nat)
  reader : List ReadResult
  deriving DecidableEq, Repr

/-- The constructor `New`. -/
def New (reader : List ReadResult) : Tokeniser :=
  { escapeNextChar := false
    currentQuoteType := quoteType.none
    word := []
    inWord := false
    words := []
    reader := reader }

namespace Tokeniser

/-- The method `endWord`. -/
def endWord (t : Tokeniser) : Tokeniser :=
  if !t.inWord then t
  else { t with words := t.words ++ [t.word], word := [], inWord := false }

/-- The method `put`. -/
def put (t : Tokeniser) (b : Nat) : Tokeniser :=
  { t with inWord := true, word := t.word ++ [b] }

/-- The method `tokeniseNoQuotes`: the flag says whether the line is done. -/
def tokeniseNoQuotes (t : Tokeniser) (b : Nat) : Bool × Tokeniser :=
  if b = 0x27 then (false, { t with inWord := true, currentQuoteType := quoteType.single })
  else if b = 0x22 then (false, { t with inWord := true, currentQuoteType := quoteType.double })
  else if b = 0x5C then (false, { t with escapeNextChar := true })
  else if b = 0x0A then (true, t.endWord)
  else if unicode.IsSpace b then (false, t.endWord)
  else (false, t.put b)

/-- The method `tokeniseSingleQuotes`. -/
def tokeniseSingleQuotes (t : Tokeniser) (b : Nat) : Bool × Tokeniser :=
  if b = 0x27 then (false, { t with currentQuoteType := quoteType.none })
  else (false, t.put b)

/-- The method `tokeniseDoubleQuotes`. -/
def tokeniseDoubleQuotes (t : Tokeniser) (b : Nat) : Bool × Tokeniser :=
  if b = 0x22 then (false, { t with currentQuoteType := quoteType.none })
  else if b = 0x5C then (false, { t with escapeNextChar := true })
  else (false, t.put b)

/-- The method `tokeniseByte`. -/
def tokeniseByte (t : Tokeniser) (b : Nat) : Bool × Tokeniser :=
  if t.escapeNextChar then (false, { t.put b with escapeNextChar := false })
  else
    match t.currentQuoteType with
    | quoteType.none => t.tokeniseNoQuotes b
    | quoteType.single => t.tokeniseSingleQuotes b
    | quoteType.double => t.tokeniseDoubleQuotes b

/-- The loop of `readByte` over the reads the source still has to offer; `bs` is the current
content of the buffer `bs[0]`. Returns the byte, the error and the rest of the source. -/
def readByteLoop : Nat → List ReadResult → Nat × Option Error × List ReadResult
  | bs, [] => (bs, some Error.EOF, [])
  | bs, r :: rest =>
    let bs1 := if r.n = 0 then bs else r.b
    if r.n = 0 ∧ r.err = Option.none then readByteLoop bs1 rest
    else (bs1, r.err, rest)

/-- The method `readByte`. -/
def readByte (t : Tokeniser) : Nat × Option Error × Tokeniser :=
  let r := readByteLoop 0 t.reader
  (r.1, r.2.1, { t with reader := r.2.2 })

/-- The `for` loop of `Tokenise`, with fuel; `none` only when the fuel runs out. -/
def TokeniseLoop : Nat → Tokeniser → Option ((List (List Nat) × Option Error) × Tokeniser)
  | 0, _ => Option.none
  | fuel + 1, t =>
    match t.readByte with
    | (_, some err, t1) => some (([], some err), t1)
    | (abyte, Option.none, t1) =>
      match t1.tokeniseByte abyte with
      | (true, t2) => some ((t2.words, Option.none), { t2 with words := [] })
      | (false, t2) => TokeniseLoop fuel t2

/-- The method `Tokenise`: the returned line and error, and the tokeniser afterwards. -/
def Tokenise (t : Tokeniser) : Option ((List (List Nat) × Option Error) × Tokeniser) :=
  TokeniseLoop (t.reader.length + 1) t

end Tokeniser

/-- A source that delivers the given bytes one per `Read`, without error. -/
def bytesReader (s : List Nat) : List ReadResult :=
  s.map (fun b => { n := 1, b := b, err := Option.none })

/-! ## package message -/

/-- The type `Message`. -/
abbrev Message := List (List Nat)

/-- The function `escapeArgument`. -/
def escapeArgument (input : List Nat) : List Nat :=
  [0x27] ++ strings.ReplaceByte input 0x27 [0x27, 0x5C, 0x27, 0x27] ++ [0x27]

/-- The inner loop of `Pack` over the runes of the argument `a`: the first rune that needs
escaping replaces `a` by `escapeArgument a` and leaves the loop. -/
def packArgLoop (a : List Nat) : List Nat → List Nat
  | [] => a
  | c :: cs =>
    if c < unicode.MaxASCII && (unicode.IsSpace c || strings.ContainsRune [0x27, 0x22, 0x5C] c)
    then escapeArgument a
    else packArgLoop a cs

/-- The outer loop of `Pack`. -/
def packLoop (outstr : List Nat) : List (List Nat) → List Nat
  | [] => outstr
  | a :: rest => packLoop (outstr ++ [0x20] ++ packArgLoop a (utf8.runes a)) rest

/-- The method `Message.Pack`; `none` is the panic of `m[0]` on an empty message. -/
def Pack (m : Message) : Option (List Nat) :=
  match m with
  | [] => Option.none
  | m0 :: rest => some (packLoop m0 rest ++ [0x0A])

/-! ## Notions used to state the properties -/

namespace Tokeniser

/-- The tokeniser with another source behind it. -/
def setReader (t : Tokeniser) (r : List ReadResult) : Tokeniser := { t with reader := r }

/-- The byte `b` arrives as a newline while the quote state is unquoted and the escape
flag is clear. -/
def isLineEnd (t : Tokeniser) (b : Nat) : Bool :=
  !t.escapeNextChar && t.currentQuoteType == quoteType.none && b == 0x0A

/-- The tokeniser after `tokeniseByte` has been given the bytes of `s` one after the other. -/
def feed (t : Tokeniser) : List Nat → Tokeniser
  | [] => t
  | b :: s => feed (t.tokeniseByte b).2 s

/-- None of the bytes of `s`, given to the tokeniser one after the other, is a line end. -/
def quiet (t : Tokeniser) : List Nat → Bool
  | [] => true
  | b :: s => !t.isLineEnd b && quiet (t.tokeniseByte b).2 s

/-- The tokeniser as `Tokenise` leaves it when a newline ends the line in state `t`: the open
word is closed, the list of words is emptied, and `post` is what is left of the source. -/
def afterLine (t : Tokeniser) (post : List ReadResult) : Tokeniser :=
  { t.endWord with words := [], reader := post }

end Tokeniser

/-- The bytes a run of reads delivers: those of the reads with `n > 0`. -/
def delivered (rs : List ReadResult) : List Nat :=
  (rs.filter (fun r => r.n ≠ 0)).map (fun r => r.b)

open Tokeniser

/-- The source reports the error `e` (the end of the stream counts as `io.EOF`) before any
read has delivered a newline while the tokeniser was unquoted with the escape flag clear:
the reads before the failing one report no error and none of their bytes is a line end. -/
def FailsBeforeLine (t : Tokeniser) (e : Error) : Prop :=
  ∃ pre : List ReadResult, (∀ x ∈ pre, x.err = Option.none) ∧ quiet t (delivered pre) = true ∧
    ((t.reader = pre ∧ e = Error.EOF) ∨
      ∃ r post, t.reader = pre ++ r :: post ∧ r.err = some e)

/-- A read without error delivers a newline while the tokeniser is unquoted with the escape
flag clear, no read before it reports an error or delivers such a newline, and `ws` is the
list of words completed once that newline has been taken in. -/
def LineCompleted (t : Tokeniser) (ws : List (List Nat)) : Prop :=
  ∃ (pre : List ReadResult) (r : ReadResult) (post : List ReadResult),
    t.reader = pre ++ r :: post ∧ (∀ x ∈ pre, x.err = Option.none) ∧
    quiet t (delivered pre) = true ∧ r.err = Option.none ∧ r.n ≠ 0 ∧ r.b = 0x0A ∧
    (feed t (delivered pre)).currentQuoteType = quoteType.none ∧
    (feed t (delivered pre)).escapeNextChar = false ∧
    ws = (feed t (delivered pre ++ [0x0A])).words

/-- The method `Tokenise` called `n` times in a row: the lines returned and the tokeniser
after the last call; `none` as soon as one of the calls reports an error. -/
def tokeniseLines : Nat → Tokeniser → Option (List (List (List Nat)) × Tokeniser)
  | 0, t => some ([], t)
  | n + 1, t =>
    match Tokenise t with
    | some ((ws, Option.none), t1) => (tokeniseLines n t1).map (fun r => (ws :: r.1, r.2))
    | _ => Option.none

/-- No bytes are held in the word buffer unless a word is open. -/
def wordClosed (t : Tokeniser) : Prop := t.inWord = false → t.word = []

/-- The test `Pack` applies to each rune `c` of an argument. -/
def specialRune (c : Nat) : Bool :=
  c < unicode.MaxASCII && (unicode.IsSpace c || strings.ContainsRune [0x27, 0x22, 0x5C] c)

/-- An ASCII whitespace byte: tab, line feed, vertical tab, form feed, carriage return or
space. -/
def isAsciiSpace (b : Nat) : Bool :=
  b == 0x09 || b == 0x0A || b == 0x0B || b == 0x0C || b == 0x0D || b == 0x20

/-- An ASCII whitespace byte, a single quote, a double quote or a backslash. -/
def needsQuoting (b : Nat) : Bool :=
  isAsciiSpace b || b == 0x27 || b == 0x22 || b == 0x5C

/-- The encoding of one argument as the specification words it: a word with a byte that needs
quoting is wrapped in single quotes, each single quote inside it being replaced by the four
bytes quote, backslash, quote, quote; any other word stands for itself. -/
def enc (a : List Nat) : List Nat :=
  if a.any needsQuoting then
    [0x27] ++ a.flatMap (fun b => if b = 0x27 then [0x27, 0x5C, 0x27, 0x27] else [b]) ++ [0x27]
  else a

/-- A byte the unquoted tokeniser adds to the current word: not a quote, not a backslash and
not whitespace by the test `unicode.IsSpace(rune(b))` of `tokeniseNoQuotes`. -/
def isPlain (b : Nat) : Bool :=
  !(b == 0x27 || b == 0x22 || b == 0x5C || unicode.IsSpace b)

/-- Given the bytes `s` one after the other, the tokeniser `t` never sees a line end and
becomes `t1`. -/
def Runs (t : Tokeniser) (s : List Nat) (t1 : Tokeniser) : Prop :=
  feed t s = t1 ∧ quiet t s = true

/-- The bytes `tok`, met by the unquoted tokeniser when no word is open, are taken in as the
single word `w`, which is left open; the words completed before are untouched. -/
def TokenFor (tok w : List Nat) : Prop :=
  ∀ (ws : List (List Nat)) (rd : List ReadResult),
    Runs ⟨false, false, quoteType.none, [], ws, rd⟩ tok ⟨true, false, quoteType.none, w, ws, rd⟩

/-- The text `s` as it is written between double quotes: a backslash is put in front of every
double quote and of every backslash. -/
def escapeDouble (s : List Nat) : List Nat :=
  s.flatMap (fun b => if b = 0x22 ∨ b = 0x5C then [0x5C, b] else [b])

/-- The loop of `Message.String`. -/
def stringLoop (outstr : List Nat) : List (List Nat) → List Nat
  | [] => outstr
  | a :: rest => stringLoop (outstr ++ [0x20] ++ a) rest

/-- The method `Message.String`; `none` is the panic of `m[0]` on an empty message. -/
def Message.String (m : Message) : Option (List Nat) :=
  match m with
  | [] => Option.none
  | m0 :: rest => some (stringLoop m0 rest)

/-- The tokeniser is outside quotes and its escape flag is clear. -/
def isUnquoted (t : Tokeniser) : Prop :=
  t.currentQuoteType = quoteType.none ∧ t.escapeNextChar = false

/-! ## package baps3, `features.go` -/

/-- The bytes of a Go string constant written with ASCII characters only. -/
def asciiBytes (s : String) : List Nat := s.toList.map Char.toNat

/-- The type `Feature`, a Go `int`. -/
abbrev Feature := Int

/-- The constant `FtUnknown`. -/
def FtUnknown : Feature := 0

/-- The constant `FtFileLoad`. -/
def FtFileLoad : Feature := 1

/-- The constant `FtPlayStop`. -/
def FtPlayStop : Feature := 2

/-- The constant `FtSeek`. -/
def FtSeek : Feature := 3

/-- The constant `FtEnd`. -/
def FtEnd : Feature := 4

/-- The constant `FtTimeReport`. -/
def FtTimeReport : Feature := 5

/-- The constant `FtPlaylist`. -/
def FtPlaylist : Feature := 6

/-- The constant `FtPlaylistAutoAdvance`. -/
def FtPlaylistAutoAdvance : Feature := 7

/-- The constant `FtPlaylistTextItems`. -/
def FtPlaylistTextItems : Feature := 8

/-- The table `ftStrings`. -/
def ftStrings : List (List Nat) :=
  [asciiBytes ("<UNKNOWN FEATURE>"), asciiBytes ("FileLoad"), asciiBytes ("PlayStop"),
   asciiBytes ("Seek"), asciiBytes ("End"), asciiBytes ("TimeReport"),
   asciiBytes ("Playlist"), asciiBytes ("Playlist.AutoAdvance"),
   asciiBytes ("Playlist.TextItems")]

/-- The method `Feature.String`; `none` is the panic of an index out of range. -/
def Feature.String (word : Feature) : Option (List Nat) :=
  if 0 ≤ word then ftStrings[word.toNat]? else Option.none

/-- The loop of `LookupFeature` over the entries of the table from index `i` on. -/
def lookupLoop (word : List Nat) : Nat → List (List Nat) → Feature
  | _, [] => FtUnknown
  | i, str :: rest => if str = word then (i : Int) else lookupLoop word (i + 1) rest

/-- The function `LookupFeature`. -/
def LookupFeature (word : List Nat) : Feature := lookupLoop word 0 ftStrings

/-! ## The byte-level state machine -/

theorem tokeniseByte_flag (t : Tokeniser) (b : Nat) :
    (t.tokeniseByte b).1 = t.isLineEnd b := by
  obtain ⟨iw, esc, q, w, ws, rd⟩ := t
  cases esc <;> cases q <;>
    simp [tokeniseByte, isLineEnd, tokeniseNoQuotes, tokeniseSingleQuotes, tokeniseDoubleQuotes] <;>
    (repeat' split) <;> simp_all

theorem tokeniseByte_setReader (t : Tokeniser) (r : List ReadResult) (b : Nat) :
    (t.setReader r).tokeniseByte b = ((t.tokeniseByte b).1, (t.tokeniseByte b).2.setReader r) := by
  obtain ⟨iw, esc, q, w, ws, rd⟩ := t
  cases esc <;> cases q <;> cases iw <;>
    simp [tokeniseByte, setReader, tokeniseNoQuotes, tokeniseSingleQuotes, tokeniseDoubleQuotes,
      put, endWord] <;>
    (repeat' split) <;> simp_all

theorem tokeniseByte_reader (t : Tokeniser) (b : Nat) :
    (t.tokeniseByte b).2.reader = t.reader := by
  obtain ⟨iw, esc, q, w, ws, rd⟩ := t
  cases esc <;> cases q <;> cases iw <;>
    simp [tokeniseByte, tokeniseNoQuotes, tokeniseSingleQuotes, tokeniseDoubleQuotes,
      put, endWord] <;>
    (repeat' split) <;> simp_all

theorem isLineEnd_setReader (t : Tokeniser) (r : List ReadResult) (b : Nat) :
    (t.setReader r).isLineEnd b = t.isLineEnd b := rfl

theorem tokeniseByte_lineEnd (t : Tokeniser) (b : Nat) (h : t.isLineEnd b = true) :
    t.tokeniseByte b = (true, t.endWord) := by
  obtain ⟨iw, esc, q, w, ws, rd⟩ := t
  simp only [isLineEnd, Bool.and_eq_true, Bool.not_eq_true', beq_iff_eq] at h
  obtain ⟨⟨h1, h2⟩, h3⟩ := h
  subst h1 h2 h3
  simp [tokeniseByte, tokeniseNoQuotes]

theorem feed_setReader (s : List Nat) : ∀ (t : Tokeniser) (r : List ReadResult),
    feed (t.setReader r) s = (feed t s).setReader r := by
  induction s with
  | nil => intro t r; rfl
  | cons b s ih =>
    intro t r
    simp only [feed, tokeniseByte_setReader, ih]

theorem quiet_setReader (s : List Nat) : ∀ (t : Tokeniser) (r : List ReadResult),
    quiet (t.setReader r) s = quiet t s := by
  induction s with
  | nil => intro t r; rfl
  | cons b s ih =>
    intro t r
    simp only [quiet, tokeniseByte_setReader, ih, isLineEnd_setReader]

theorem feed_append (s1 : List Nat) : ∀ (t : Tokeniser) (s2 : List Nat),
    feed t (s1 ++ s2) = feed (feed t s1) s2 := by
  induction s1 with
  | nil => intro t s2; rfl
  | cons b s ih => intro t s2; exact ih _ s2

theorem quiet_append (s1 : List Nat) : ∀ (t : Tokeniser) (s2 : List Nat),
    quiet t (s1 ++ s2) = (quiet t s1 && quiet (feed t s1) s2) := by
  induction s1 with
  | nil => intro t s2; simp [quiet, feed]
  | cons b s ih =>
    intro t s2
    show (!t.isLineEnd b && quiet (t.tokeniseByte b).2 (s ++ s2)) = _
    rw [ih]
    simp only [quiet, feed, Bool.and_assoc]

theorem feed_reader (s : List Nat) : ∀ (t : Tokeniser), (feed t s).reader = t.reader := by
  induction s with
  | nil => intro t; rfl
  | cons b s ih => intro t; simp only [feed, ih, tokeniseByte_reader]

theorem setReader_setReader (t : Tokeniser) (r1 r2 : List ReadResult) :
    (t.setReader r1).setReader r2 = t.setReader r2 := rfl

theorem setReader_self (t : Tokeniser) (r : List ReadResult) (h : t.reader = r) :
    t.setReader r = t := by
  subst h; rfl

theorem endWord_words_setReader (t : Tokeniser) (r : List ReadResult) :
    (t.setReader r).endWord.words = t.endWord.words := by
  obtain ⟨iw, esc, q, w, ws, rd⟩ := t
  cases iw <;> simp [setReader, endWord]

theorem afterLine_setReader (t : Tokeniser) (r post : List ReadResult) :
    (t.setReader r).afterLine post = t.afterLine post := by
  obtain ⟨iw, esc, q, w, ws, rd⟩ := t
  cases iw <;> simp [afterLine, setReader, endWord]

/-! ## One turn of the loop of `Tokenise` -/

theorem TokeniseLoop_eof (fuel : Nat) (t : Tokeniser) (h : t.reader = []) :
    TokeniseLoop (fuel + 1) t = some (([], some Error.EOF), t) := by
  obtain ⟨iw, esc, q, w, ws, rd⟩ := t
  simp only at h
  subst h
  simp [TokeniseLoop, readByte, readByteLoop]

theorem TokeniseLoop_err (fuel : Nat) (t : Tokeniser) (r : ReadResult) (rest : List ReadResult)
    (e : Error) (he : r.err = some e) (h : t.reader = r :: rest) :
    TokeniseLoop (fuel + 1) t = some (([], some e), t.setReader rest) := by
  obtain ⟨iw, esc, q, w, ws, rd⟩ := t
  simp only at h
  subst h
  simp [TokeniseLoop, readByte, readByteLoop, he, setReader]

theorem TokeniseLoop_skip (fuel : Nat) (t : Tokeniser) (r : ReadResult) (rest : List ReadResult)
    (hn : r.n = 0) (he : r.err = Option.none) (h : t.reader = r :: rest) :
    TokeniseLoop (fuel + 1) t = TokeniseLoop (fuel + 1) (t.setReader rest) := by
  obtain ⟨iw, esc, q, w, ws, rd⟩ := t
  simp only at h
  subst h
  simp [TokeniseLoop, readByte, readByteLoop, he, hn, setReader]

theorem TokeniseLoop_byte (fuel : Nat) (t : Tokeniser) (r : ReadResult) (rest : List ReadResult)
    (hn : r.n ≠ 0) (he : r.err = Option.none) (h : t.reader = r :: rest) :
    TokeniseLoop (fuel + 1) t =
      if t.isLineEnd r.b then some ((t.endWord.words, Option.none), t.afterLine rest)
      else TokeniseLoop fuel ((t.tokeniseByte r.b).2.setReader rest) := by
  have h1 : t.readByte = (r.b, Option.none, t.setReader rest) := by
    obtain ⟨iw, esc, q, w, ws, rd⟩ := t
    simp only at h
    subst h
    simp [readByte, readByteLoop, he, hn, setReader]
  have h2 := tokeniseByte_setReader t rest r.b
  rw [tokeniseByte_flag] at h2
  by_cases hl : t.isLineEnd r.b = true
  · rw [if_pos hl]
    rw [hl, tokeniseByte_lineEnd t r.b hl] at h2
    simp only [TokeniseLoop, h1, h2]
    obtain ⟨iw, esc, q, w, ws, rd⟩ := t
    cases iw <;> simp [afterLine, setReader, endWord]
  · rw [if_neg hl]
    simp only [Bool.not_eq_true] at hl
    rw [hl] at h2
    simp only [TokeniseLoop, h1, h2]

/-! ## The loop of `Tokenise` over a run of reads -/

theorem delivered_cons_zero (x : ReadResult) (pre : List ReadResult) (h : x.n = 0) :
    delivered (x :: pre) = delivered pre := by
  simp [delivered, h]

theorem delivered_cons_pos (x : ReadResult) (pre : List ReadResult) (h : x.n ≠ 0) :
    delivered (x :: pre) = x.b :: delivered pre := by
  simp [delivered, h]

theorem delivered_length_le (pre : List ReadResult) : (delivered pre).length ≤ pre.length := by
  simp only [delivered, List.length_map]
  exact List.length_filter_le _ _

theorem delivered_bytesReader (s : List Nat) : delivered (bytesReader s) = s := by
  induction s with
  | nil => rfl
  | cons b s ih =>
    have : delivered (bytesReader (b :: s)) = b :: delivered (bytesReader s) :=
      delivered_cons_pos _ _ (by simp)
    rw [this, ih]

theorem bytesReader_err (s : List Nat) : ∀ x ∈ bytesReader s, x.err = Option.none := by
  intro x hx
  simp only [bytesReader, List.mem_map] at hx
  obtain ⟨b, _, rfl⟩ := hx
  rfl

theorem TokeniseLoop_mono (f : Nat) : ∀ (t : Tokeniser) x, TokeniseLoop f t = some x →
    ∀ k, TokeniseLoop (f + k) t = some x := by
  induction f with
  | zero => intro t x h; simp [TokeniseLoop] at h
  | succ f ih =>
    intro t x h k
    rw [show f + 1 + k = (f + k) + 1 by omega]
    rcases hrb : t.readByte with ⟨b, _ | e, t1⟩
    · rcases htb : t1.tokeniseByte b with ⟨_ | _, t2⟩
      · simp only [TokeniseLoop, hrb, htb] at h ⊢
        exact ih t2 x h k
      · simp only [TokeniseLoop, hrb, htb] at h ⊢
        exact h
    · simp only [TokeniseLoop, hrb] at h ⊢
      exact h

theorem TokeniseLoop_run (pre : List ReadResult) : ∀ (t : Tokeniser) (rest : List ReadResult)
    (fuel : Nat), (∀ x ∈ pre, x.err = Option.none) → quiet t (delivered pre) = true →
    t.reader = pre ++ rest →
    TokeniseLoop (fuel + 1 + (delivered pre).length) t
      = TokeniseLoop (fuel + 1) ((feed t (delivered pre)).setReader rest) := by
  induction pre with
  | nil =>
    intro t rest fuel _ _ hr
    simp only [List.nil_append] at hr
    simp [delivered, feed, setReader_self t rest hr]
  | cons x pre ih =>
    intro t rest fuel hgood hq hr
    have hx : x.err = Option.none := hgood x (List.mem_cons_self _ _)
    have hpre : ∀ y ∈ pre, y.err = Option.none := fun y hy => hgood y (List.mem_cons_of_mem _ hy)
    by_cases hn : x.n = 0
    · rw [delivered_cons_zero x pre hn] at hq ⊢
      rw [show fuel + 1 + (delivered pre).length = fuel + (delivered pre).length + 1 by omega,
        TokeniseLoop_skip _ t x (pre ++ rest) hn hx hr,
        show fuel + (delivered pre).length + 1 = fuel + 1 + (delivered pre).length by omega]
      rw [ih (t.setReader (pre ++ rest)) rest fuel hpre (by rw [quiet_setReader]; exact hq) rfl]
      rw [feed_setReader, setReader_setReader]
    · rw [delivered_cons_pos x pre hn] at hq ⊢
      simp only [quiet, Bool.and_eq_true, Bool.not_eq_true'] at hq
      have hstep := TokeniseLoop_byte (fuel + 1 + (delivered pre).length) t x (pre ++ rest) hn hx hr
      rw [hq.1] at hstep
      simp only [Bool.false_eq_true, if_false] at hstep
      simp only [List.length_cons, feed]
      rw [show fuel + 1 + ((delivered pre).length + 1) = fuel + 1 + (delivered pre).length + 1 by omega,
        hstep]
      rw [ih ((t.tokeniseByte x.b).2.setReader (pre ++ rest)) rest fuel hpre
        (by rw [quiet_setReader]; exact hq.2) rfl]
      rw [feed_setReader, setReader_setReader]

theorem Tokenise_of_loop (t : Tokeniser) (pre : List ReadResult) (rest : List ReadResult) x
    (hr : t.reader = pre ++ rest)
    (h : TokeniseLoop (0 + 1 + (delivered pre).length) t = some x) : Tokenise t = some x := by
  have hlen : (delivered pre).length ≤ t.reader.length := by
    rw [hr, List.length_append]
    have := delivered_length_le pre
    omega
  have := TokeniseLoop_mono _ t x h (t.reader.length - (delivered pre).length)
  rw [show 0 + 1 + (delivered pre).length + (t.reader.length - (delivered pre).length)
    = t.reader.length + 1 by omega] at this
  exact this

theorem Tokenise_fails (t : Tokeniser) (e : Error) (h : FailsBeforeLine t e) :
    ∃ t1, Tokenise t = some (([], some e), t1) := by
  obtain ⟨pre, hgood, hq, hcase⟩ := h
  rcases hcase with ⟨hr, he⟩ | ⟨r, post, hr, he⟩
  · subst he
    refine ⟨(feed t (delivered pre)).setReader [], ?_⟩
    apply Tokenise_of_loop t pre [] _ (by simpa using hr)
    rw [TokeniseLoop_run pre t [] 0 hgood hq (by simpa using hr)]
    exact TokeniseLoop_eof 0 _ rfl
  · refine ⟨(feed t (delivered pre)).setReader post, ?_⟩
    apply Tokenise_of_loop t pre (r :: post) _ hr
    rw [TokeniseLoop_run pre t (r :: post) 0 hgood hq hr]
    exact TokeniseLoop_err 0 _ r post e he rfl

theorem Tokenise_line (t : Tokeniser) (pre : List ReadResult) (r : ReadResult)
    (post : List ReadResult) (hr : t.reader = pre ++ r :: post)
    (hgood : ∀ x ∈ pre, x.err = Option.none) (hq : quiet t (delivered pre) = true)
    (he : r.err = Option.none) (hn : r.n ≠ 0)
    (hl : (feed t (delivered pre)).isLineEnd r.b = true) :
    Tokenise t = some (((feed t (delivered pre)).endWord.words, Option.none),
      (feed t (delivered pre)).afterLine post) := by
  apply Tokenise_of_loop t pre (r :: post) _ hr
  rw [TokeniseLoop_run pre t (r :: post) 0 hgood hq hr]
  rw [TokeniseLoop_byte 0 _ r post hn he rfl, isLineEnd_setReader, if_pos hl, afterLine_setReader,
    endWord_words_setReader]

theorem FailsBeforeLine_skip (t : Tokeniser) (x : ReadResult) (rest : List ReadResult) (e : Error)
    (hr : t.reader = x :: rest) (hx : x.err = Option.none) (hn : x.n = 0)
    (h : FailsBeforeLine (t.setReader rest) e) : FailsBeforeLine t e := by
  obtain ⟨pre, hgood, hq, hcase⟩ := h
  refine ⟨x :: pre, ?_, ?_, ?_⟩
  · intro y hy
    rcases List.mem_cons.1 hy with rfl | hy
    · exact hx
    · exact hgood y hy
  · rw [delivered_cons_zero x pre hn, ← quiet_setReader _ t rest]
    exact hq
  · rcases hcase with ⟨h1, h2⟩ | ⟨r, post, h1, h2⟩
    · left
      exact ⟨by rw [hr]; congr 1, h2⟩
    · right
      exact ⟨r, post, by rw [hr]; simpa using h1, h2⟩

theorem FailsBeforeLine_byte (t : Tokeniser) (x : ReadResult) (rest : List ReadResult) (e : Error)
    (hr : t.reader = x :: rest) (hx : x.err = Option.none) (hn : x.n ≠ 0)
    (hl : t.isLineEnd x.b = false)
    (h : FailsBeforeLine ((t.tokeniseByte x.b).2.setReader rest) e) : FailsBeforeLine t e := by
  obtain ⟨pre, hgood, hq, hcase⟩ := h
  refine ⟨x :: pre, ?_, ?_, ?_⟩
  · intro y hy
    rcases List.mem_cons.1 hy with rfl | hy
    · exact hx
    · exact hgood y hy
  · rw [delivered_cons_pos x pre hn]
    rw [quiet_setReader] at hq
    simp [quiet, hl, hq]
  · rcases hcase with ⟨h1, h2⟩ | ⟨r, post, h1, h2⟩
    · left
      exact ⟨by rw [hr]; congr 1, h2⟩
    · right
      exact ⟨r, post, by rw [hr]; simpa using h1, h2⟩

theorem LineCompleted_skip (t : Tokeniser) (x : ReadResult) (rest : List ReadResult)
    (ws : List (List Nat))
    (hr : t.reader = x :: rest) (hx : x.err = Option.none) (hn : x.n = 0)
    (h : LineCompleted (t.setReader rest) ws) : LineCompleted t ws := by
  obtain ⟨pre, r, post, h1, hgood, hq, h2, h3, h4, h5, h6, h7⟩ := h
  refine ⟨x :: pre, r, post, by rw [hr]; simpa using h1, ?_, ?_, h2, h3, h4, ?_, ?_, ?_⟩
  · intro y hy
    rcases List.mem_cons.1 hy with rfl | hy
    · exact hx
    · exact hgood y hy
  · rw [delivered_cons_zero x pre hn, ← quiet_setReader _ t rest]
    exact hq
  · rw [delivered_cons_zero x pre hn]
    rw [feed_setReader] at h5
    exact h5
  · rw [delivered_cons_zero x pre hn]
    rw [feed_setReader] at h6
    exact h6
  · rw [delivered_cons_zero x pre hn]
    rw [feed_setReader] at h7
    exact h7

theorem LineCompleted_byte (t : Tokeniser) (x : ReadResult) (rest : List ReadResult)
    (ws : List (List Nat))
    (hr : t.reader = x :: rest) (hx : x.err = Option.none) (hn : x.n ≠ 0)
    (hl : t.isLineEnd x.b = false)
    (h : LineCompleted ((t.tokeniseByte x.b).2.setReader rest) ws) : LineCompleted t ws := by
  obtain ⟨pre, r, post, h1, hgood, hq, h2, h3, h4, h5, h6, h7⟩ := h
  refine ⟨x :: pre, r, post, by rw [hr]; simpa using h1, ?_, ?_, h2, h3, h4, ?_, ?_, ?_⟩
  · intro y hy
    rcases List.mem_cons.1 hy with rfl | hy
    · exact hx
    · exact hgood y hy
  · rw [delivered_cons_pos x pre hn]
    rw [quiet_setReader] at hq
    simp [quiet, hl, hq]
  · rw [delivered_cons_pos x pre hn]
    rw [feed_setReader] at h5
    exact h5
  · rw [delivered_cons_pos x pre hn]
    rw [feed_setReader] at h6
    exact h6
  · rw [delivered_cons_pos x pre hn]
    rw [feed_setReader] at h7
    exact h7

theorem isLineEnd_iff (t : Tokeniser) (b : Nat) :
    t.isLineEnd b = true ↔
      b = 0x0A ∧ t.currentQuoteType = quoteType.none ∧ t.escapeNextChar = false := by
  simp only [isLineEnd, Bool.and_eq_true, Bool.not_eq_true', beq_iff_eq]
  tauto

theorem fails_or_line (script : List ReadResult) : ∀ (t : Tokeniser), t.reader = script →
    (∃ e, FailsBeforeLine t e) ∨ (∃ ws, LineCompleted t ws) := by
  induction script with
  | nil =>
    intro t hr
    exact Or.inl ⟨Error.EOF, [], by simp, rfl, Or.inl ⟨hr, rfl⟩⟩
  | cons x rest ih =>
    intro t hr
    rcases hx : x.err with _ | e
    · by_cases hn : x.n = 0
      · rcases ih (t.setReader rest) rfl with ⟨e, h⟩ | ⟨ws, h⟩
        · exact Or.inl ⟨e, FailsBeforeLine_skip t x rest e hr hx hn h⟩
        · exact Or.inr ⟨ws, LineCompleted_skip t x rest ws hr hx hn h⟩
      · by_cases hl : t.isLineEnd x.b = true
        · obtain ⟨h1, h2, h3⟩ := (isLineEnd_iff t x.b).1 hl
          exact Or.inr ⟨_, [], x, rest, hr, by simp, rfl, hx, hn, h1, h2, h3, rfl⟩
        · simp only [Bool.not_eq_true] at hl
          rcases ih ((t.tokeniseByte x.b).2.setReader rest) rfl with ⟨e, h⟩ | ⟨ws, h⟩
          · exact Or.inl ⟨e, FailsBeforeLine_byte t x rest e hr hx hn hl h⟩
          · exact Or.inr ⟨ws, LineCompleted_byte t x rest ws hr hx hn hl h⟩
    · exact Or.inl ⟨e, [], by simp, rfl, Or.inr ⟨x, rest, hr, hx⟩⟩

theorem Tokenise_completed (t : Tokeniser) (ws : List (List Nat)) (h : LineCompleted t ws) :
    ∃ t1, Tokenise t = some ((ws, Option.none), t1) := by
  obtain ⟨pre, r, post, h1, hgood, hq, h2, h3, h4, h5, h6, h7⟩ := h
  have hl : (feed t (delivered pre)).isLineEnd r.b = true :=
    (isLineEnd_iff _ _).2 ⟨h4, h5, h6⟩
  refine ⟨(feed t (delivered pre)).afterLine post, ?_⟩
  rw [Tokenise_line t pre r post h1 hgood hq h2 h3 hl, h7, feed_append]
  simp only [feed]
  rw [← h4, tokeniseByte_lineEnd _ _ hl]

theorem Tokenise_returns (t : Tokeniser) : (Tokenise t).isSome = true := by
  rcases fails_or_line t.reader t rfl with ⟨e0, h0⟩ | ⟨ws0, h0⟩
  · obtain ⟨t0, ht0⟩ := Tokenise_fails t e0 h0
    rw [ht0]; rfl
  · obtain ⟨t0, ht0⟩ := Tokenise_completed t ws0 h0
    rw [ht0]; rfl

theorem Tokenise_ok_state (t t1 : Tokeniser) (ws : List (List Nat))
    (h : Tokenise t = some ((ws, Option.none), t1)) :
    ∃ (s : List Nat) (post : List ReadResult),
      (feed t s).currentQuoteType = quoteType.none ∧ (feed t s).escapeNextChar = false ∧
      t1 = (feed t s).afterLine post := by
  rcases fails_or_line t.reader t rfl with ⟨e0, h0⟩ | ⟨ws0, h0⟩
  · obtain ⟨t0, ht0⟩ := Tokenise_fails t e0 h0
    rw [ht0] at h
    simp at h
  · obtain ⟨pre, r, post, h1, hgood, hq, h2, h3, h4, h5, h6, h7⟩ := h0
    have hl : (feed t (delivered pre)).isLineEnd r.b = true :=
      (isLineEnd_iff _ _).2 ⟨h4, h5, h6⟩
    rw [Tokenise_line t pre r post h1 hgood hq h2 h3 hl] at h
    simp only [Option.some.injEq, Prod.mk.injEq] at h
    exact ⟨delivered pre, post, h5, h6, h.2.symm⟩

theorem wordClosed_tokeniseByte (t : Tokeniser) (b : Nat) (h : wordClosed t) :
    wordClosed (t.tokeniseByte b).2 := by
  obtain ⟨iw, esc, q, w, ws, rd⟩ := t
  simp only [wordClosed] at h
  cases esc <;> cases q <;> cases iw <;>
    simp [wordClosed, tokeniseByte, tokeniseNoQuotes, tokeniseSingleQuotes, tokeniseDoubleQuotes,
      put, endWord] <;>
    (repeat' split) <;> simp_all

theorem wordClosed_feed (s : List Nat) : ∀ (t : Tokeniser), wordClosed t → wordClosed (feed t s) := by
  induction s with
  | nil => intro t h; exact h
  | cons b s ih => intro t h; exact ih _ (wordClosed_tokeniseByte t b h)

theorem afterLine_eq_New (t : Tokeniser) (post : List ReadResult) (h : wordClosed t)
    (hq : t.currentQuoteType = quoteType.none) (he : t.escapeNextChar = false) :
    t.afterLine post = New post := by
  obtain ⟨iw, esc, q, w, ws, rd⟩ := t
  simp only [wordClosed] at h
  simp only at hq he
  subst hq he
  cases iw <;> simp_all [afterLine, endWord, New]

theorem Tokenise_New_state (t t1 : Tokeniser) (ws : List (List Nat)) (hc : wordClosed t)
    (h : Tokenise t = some ((ws, Option.none), t1)) : t1 = New t1.reader := by
  obtain ⟨s, post, hq, he, rfl⟩ := Tokenise_ok_state t t1 ws h
  rw [afterLine_eq_New _ post (wordClosed_feed s t hc) hq he]
  rfl

theorem tokeniseLines_state (n : Nat) : ∀ (t t1 : Tokeniser) (lines : List (List (List Nat))),
    t = New t.reader → tokeniseLines n t = some (lines, t1) → t1 = New t1.reader := by
  induction n with
  | zero =>
    intro t t1 lines ht h
    simp only [tokeniseLines, Option.some.injEq, Prod.mk.injEq] at h
    rw [← h.2]
    exact ht
  | succ n ih =>
    intro t t1 lines ht h
    rcases hT : Tokenise t with _ | ⟨⟨ws, _ | e⟩, t2⟩
    · simp [tokeniseLines, hT] at h
    · simp only [tokeniseLines, hT, Option.map_eq_some'] at h
      obtain ⟨⟨l2, t3⟩, h1, h2⟩ := h
      simp only [Prod.mk.injEq] at h2
      have hc : wordClosed t := by
        rw [ht]
        intro _
        rfl
      have := ih t2 t3 l2 (Tokenise_New_state t t2 ws hc hT) h1
      rw [← h2.2]
      exact this
    · simp [tokeniseLines, hT] at h

/-! ## `Pack` and the runes of an argument -/

theorem specialRune_ascii (c : Nat) (h : c < 0x80) : specialRune c = needsQuoting c := by
  have key : ∀ c < 0x80, specialRune c = needsQuoting c := by decide
  exact key c h

theorem specialRune_high (c : Nat) (h : 0x80 ≤ c) : specialRune c = false := by
  have : ¬ c < 0x7F := by omega
  simp [specialRune, unicode.MaxASCII, this]

theorem needsQuoting_high (b : Nat) (h : 0x80 ≤ b) : needsQuoting b = false := by
  have h1 : b ≠ 0x09 := by omega
  have h2 : b ≠ 0x0A := by omega
  have h3 : b ≠ 0x0B := by omega
  have h4 : b ≠ 0x0C := by omega
  have h5 : b ≠ 0x0D := by omega
  have h6 : b ≠ 0x20 := by omega
  have h7 : b ≠ 0x27 := by omega
  have h8 : b ≠ 0x22 := by omega
  have h9 : b ≠ 0x5C := by omega
  simp [needsQuoting, isAsciiSpace, h1, h2, h3, h4, h5, h6, h7, h8, h9]

theorem DecodeRune_ascii (s0 : Nat) (rest : List Nat) (h : s0 < 0x80) :
    utf8.DecodeRune (s0 :: rest) = (s0, 1) := by
  simp [utf8.DecodeRune, h]


theorem DecodeRune_four (s1 s2 s3 : Nat) (r4 : List Nat) (s0 : Nat) (h1 : 0xF0 ≤ s0) (h2 : s0 ≤ 0xF4) :
    0x80 ≤ (utf8.DecodeRune (s0 :: s1 :: s2 :: s3 :: r4)).1 ∧
      ∀ b ∈ (s1 :: s2 :: s3 :: r4).take ((utf8.DecodeRune (s0 :: s1 :: s2 :: s3 :: r4)).2 - 1), 0x80 ≤ b := by
  have a0 : ¬ s0 < 0x80 := by omega
  have a1 : ¬ (s0 < 0xC2 ∨ 0xF4 < s0) := by omega
  have a2 : ¬ s0 < 0xE0 := by omega
  have a3 : ¬ s0 < 0xF0 := by omega
  have a4 : s0 ≠ 0xE0 := by omega
  have a5 : s0 ≠ 0xED := by omega
  have e5 : ¬ (4 ≤ 2) := by omega
  have e6 : ¬ (4 ≤ 3) := by omega
  simp only [utf8.DecodeRune, a0, a1, a2, a3, a4, a5, e5, e6, if_false, utf8.RuneError, utf8.locb, utf8.hicb]
  by_cases c1 : s1 < (if s0 = 240 then 144 else 128) ∨ (if s0 = 244 then 143 else 191) < s1
  · rw [if_pos c1]
    exact ⟨by norm_num, fun b hb => by simp at hb⟩
  rw [if_neg c1]
  by_cases c2 : s2 < 128 ∨ 191 < s2
  · rw [if_pos c2]
    exact ⟨by norm_num, fun b hb => by simp at hb⟩
  rw [if_neg c2]
  by_cases c3 : s3 < 128 ∨ 191 < s3
  · rw [if_pos c3]
    exact ⟨by norm_num, fun b hb => by simp at hb⟩
  rw [if_neg c3]
  have d1 : 128 ≤ s1 := by
    split_ifs at c1 <;> omega
  have d2 : s1 ≤ 191 := by
    split_ifs at c1 <;> omega
  have d1b : s0 = 240 → 144 ≤ s1 := by
    intro h
    rw [if_pos h] at c1
    omega
  refine ⟨?_, ?_⟩
  · dsimp only
    by_cases h : s0 = 240
    · have := d1b h
      omega
    · omega
  · intro b hb
    change b ∈ [s1, s2, s3] at hb
    simp only [List.mem_cons, List.mem_singleton, List.not_mem_nil, or_false] at hb
    rcases hb with rfl | rfl | rfl <;> omega

theorem DecodeRune_high (s0 : Nat) (rest : List Nat) (h : 0x80 ≤ s0) :
    0x80 ≤ (utf8.DecodeRune (s0 :: rest)).1 ∧
      ∀ b ∈ rest.take ((utf8.DecodeRune (s0 :: rest)).2 - 1), 0x80 ≤ b := by
  have h0 : ¬ s0 < 0x80 := by omega
  by_cases h1 : s0 < 0xC2 ∨ 0xF4 < s0
  · simp [utf8.DecodeRune, h0, h1, utf8.RuneError]
  by_cases h2 : s0 < 0xE0
  · rcases rest with _ | ⟨s1, r2⟩
    · simp [utf8.DecodeRune, h0, h1, utf8.RuneError]
    · simp only [utf8.DecodeRune, h0, h1, h2, if_false, if_true, utf8.RuneError,
        utf8.locb, utf8.hicb, le_refl]
      split_ifs <;> simp <;> omega
  by_cases h3 : s0 < 0xF0
  · have e5 : ¬ (3 ≤ 2) := by omega
    rcases rest with _ | ⟨s1, _ | ⟨s2, r3⟩⟩
    · simp [utf8.DecodeRune, h0, h1, utf8.RuneError]
    · simp only [utf8.DecodeRune, h0, h1, h2, h3, e5, if_false, if_true, utf8.RuneError,
        utf8.locb, utf8.hicb, le_refl]
      split_ifs <;> simp
    · simp only [utf8.DecodeRune, h0, h1, h2, h3, e5, if_false, if_true, utf8.RuneError,
        utf8.locb, utf8.hicb, le_refl]
      split_ifs <;> simp <;> omega
  · have e5 : ¬ (4 ≤ 2) := by omega
    have e6 : ¬ (4 ≤ 3) := by omega
    rcases rest with _ | ⟨s1, _ | ⟨s2, _ | ⟨s3, r4⟩⟩⟩
    · simp [utf8.DecodeRune, h0, h1, utf8.RuneError]
    · simp only [utf8.DecodeRune, h0, h1, h2, h3, e5, e6, if_false, if_true, utf8.RuneError,
        utf8.locb, utf8.hicb, le_refl]
      split_ifs <;> simp
    · simp only [utf8.DecodeRune, h0, h1, h2, h3, e5, e6, if_false, if_true, utf8.RuneError,
        utf8.locb, utf8.hicb, le_refl]
      split_ifs <;> simp
    · exact DecodeRune_four s1 s2 s3 r4 s0 (by omega) (by omega)

theorem rangeFrom_any (l : List Nat) : ∀ (k : Nat), (∀ b ∈ l.take k, 0x80 ≤ b) →
    (utf8.rangeFrom k l).any specialRune = l.any needsQuoting := by
  induction l with
  | nil => intro k _; cases k <;> rfl
  | cons s0 rest ih =>
    intro k hk
    cases k with
    | succ k =>
      have h0 : 0x80 ≤ s0 := hk s0 (by simp)
      have hrest : ∀ b ∈ rest.take k, 0x80 ≤ b := fun b hb => hk b (by simp [hb])
      simp only [utf8.rangeFrom, List.any_cons, needsQuoting_high s0 h0, Bool.false_or]
      exact ih k hrest
    | zero =>
      simp only [utf8.rangeFrom, List.any_cons]
      by_cases h0 : s0 < 0x80
      · rw [DecodeRune_ascii s0 rest h0, specialRune_ascii s0 h0]
        rw [ih (1 - 1) (by simp)]
      · have h1 : 0x80 ≤ s0 := by omega
        obtain ⟨hr, hc⟩ := DecodeRune_high s0 rest h1
        rw [specialRune_high _ hr, needsQuoting_high s0 h1, ih _ hc]

theorem runes_any (a : List Nat) : (utf8.runes a).any specialRune = a.any needsQuoting :=
  rangeFrom_any a 0 (by simp)

theorem ReplaceByte_quote (a : List Nat) :
    strings.ReplaceByte a 0x27 [0x27, 0x5C, 0x27, 0x27]
      = a.flatMap (fun b => if b = 0x27 then [0x27, 0x5C, 0x27, 0x27] else [b]) := rfl

theorem packArgLoop_eq (a : List Nat) (cs : List Nat) :
    packArgLoop a cs = if cs.any specialRune then escapeArgument a else a := by
  induction cs with
  | nil => rfl
  | cons c cs ih =>
    by_cases hc : specialRune c = true
    · have hc2 := hc
      unfold specialRune at hc2
      simp only [packArgLoop, hc2, if_true, List.any_cons, hc, Bool.true_or]
    · simp only [Bool.not_eq_true] at hc
      have hc2 := hc
      unfold specialRune at hc2
      simp only [packArgLoop, hc2, List.any_cons, hc, Bool.false_or, ih]
      simp

theorem packArg_eq_enc (a : List Nat) : packArgLoop a (utf8.runes a) = enc a := by
  rw [packArgLoop_eq, runes_any]
  rfl

theorem packLoop_eq (rest : List (List Nat)) : ∀ (outstr : List Nat),
    packLoop outstr rest = outstr ++ rest.flatMap (fun a => [0x20] ++ enc a) := by
  induction rest with
  | nil => intro outstr; simp [packLoop]
  | cons a rest ih =>
    intro outstr
    simp only [packLoop, ih, packArg_eq_enc, List.flatMap_cons, List.append_assoc]

theorem Pack_eq (m0 : List Nat) (rest : List (List Nat)) :
    Pack (m0 :: rest) = some (m0 ++ rest.flatMap (fun a => [0x20] ++ enc a) ++ [0x0A]) := by
  simp only [Pack, packLoop_eq]

/-! ## Words and tokens -/

theorem Runs_nil (t : Tokeniser) : Runs t [] t := ⟨rfl, rfl⟩

theorem Runs_cons (t t1 : Tokeniser) (b : Nat) (s : List Nat) (hb : t.isLineEnd b = false)
    (h : Runs (t.tokeniseByte b).2 s t1) : Runs t (b :: s) t1 := by
  refine ⟨h.1, ?_⟩
  simp only [quiet, hb, h.2, Bool.not_false, Bool.and_self]

theorem Runs_append (t t1 t2 : Tokeniser) (s1 s2 : List Nat) (h1 : Runs t s1 t1)
    (h2 : Runs t1 s2 t2) : Runs t (s1 ++ s2) t2 := by
  refine ⟨?_, ?_⟩
  · rw [feed_append, h1.1, h2.1]
  · rw [quiet_append, h1.2, h1.1, h2.2]
    rfl

theorem isPlain_iff (b : Nat) :
    isPlain b = true ↔ b ≠ 0x27 ∧ b ≠ 0x22 ∧ b ≠ 0x5C ∧ unicode.IsSpace b = false := by
  simp only [isPlain, Bool.not_eq_true', Bool.or_eq_false_iff, beq_eq_false_iff_ne, ne_eq]
  tauto

theorem isPlain_ne_newline (b : Nat) (h : isPlain b = true) : b ≠ 0x0A := by
  rintro rfl
  revert h
  decide

theorem tokeniseByte_plain (b : Nat) (h : isPlain b = true) (iw : Bool) (w : List Nat)
    (ws : List (List Nat)) (rd : List ReadResult) :
    tokeniseByte ⟨iw, false, quoteType.none, w, ws, rd⟩ b
      = (false, ⟨true, false, quoteType.none, w ++ [b], ws, rd⟩) := by
  have hn := isPlain_ne_newline b h
  obtain ⟨h1, h2, h3, h4⟩ := (isPlain_iff b).1 h
  simp [tokeniseByte, tokeniseNoQuotes, put, h1, h2, h3, h4, hn]

theorem isLineEnd_of_ne (t : Tokeniser) (b : Nat) (h : b ≠ 0x0A) : t.isLineEnd b = false := by
  simp [isLineEnd, h]

theorem isLineEnd_quoted (t : Tokeniser) (b : Nat) (h : t.currentQuoteType ≠ quoteType.none) :
    t.isLineEnd b = false := by
  simp [isLineEnd, h]

theorem isLineEnd_escaped (t : Tokeniser) (b : Nat) (h : t.escapeNextChar = true) :
    t.isLineEnd b = false := by
  simp [isLineEnd, h]

theorem Runs_plain (s : List Nat) : ∀ (_ : ∀ b ∈ s, isPlain b = true) (iw : Bool) (w : List Nat)
    (ws : List (List Nat)) (rd : List ReadResult),
    Runs ⟨iw, false, quoteType.none, w, ws, rd⟩ s
      ⟨iw || !s.isEmpty, false, quoteType.none, w ++ s, ws, rd⟩ := by
  induction s with
  | nil =>
    intro _ iw w ws rd
    simpa using Runs_nil _
  | cons b s ih =>
    intro hs iw w ws rd
    have hb : isPlain b = true := hs b (List.mem_cons_self _ _)
    apply Runs_cons _ _ _ _ (isLineEnd_of_ne _ _ (isPlain_ne_newline b hb))
    rw [tokeniseByte_plain b hb]
    have := ih (fun c hc => hs c (List.mem_cons_of_mem _ hc)) true (w ++ [b]) ws rd
    simpa using this

theorem TokenFor_plain (w : List Nat) (hne : w ≠ []) (hw : ∀ b ∈ w, isPlain b = true) :
    TokenFor w w := by
  intro ws rd
  have := Runs_plain w hw false [] ws rd
  cases w with
  | nil => exact absurd rfl hne
  | cons b w => simpa using this

theorem Runs_space (w : List Nat) (ws : List (List Nat)) (rd : List ReadResult) :
    Runs ⟨true, false, quoteType.none, w, ws, rd⟩ [0x20]
      ⟨false, false, quoteType.none, [], ws ++ [w], rd⟩ := by
  apply Runs_cons _ _ _ _ (isLineEnd_of_ne _ _ (by decide))
  have : tokeniseByte ⟨true, false, quoteType.none, w, ws, rd⟩ 0x20
      = (false, ⟨false, false, quoteType.none, [], ws ++ [w], rd⟩) := by
    have hsp : unicode.IsSpace 0x20 = true := by decide
    simp [tokeniseByte, tokeniseNoQuotes, endWord, hsp]
  rw [this]
  exact Runs_nil _

theorem Runs_quoted_body (a : List Nat) : ∀ (w : List Nat) (ws : List (List Nat))
    (rd : List ReadResult),
    Runs ⟨true, false, quoteType.single, w, ws, rd⟩
      (strings.ReplaceByte a 0x27 [0x27, 0x5C, 0x27, 0x27])
      ⟨true, false, quoteType.single, w ++ a, ws, rd⟩ := by
  induction a with
  | nil =>
    intro w ws rd
    simpa [strings.ReplaceByte] using Runs_nil _
  | cons b a ih =>
    intro w ws rd
    have hcons : strings.ReplaceByte (b :: a) 0x27 [0x27, 0x5C, 0x27, 0x27]
        = (if b = 0x27 then [0x27, 0x5C, 0x27, 0x27] else [b])
          ++ strings.ReplaceByte a 0x27 [0x27, 0x5C, 0x27, 0x27] := by
      simp [strings.ReplaceByte]
    rw [hcons]
    have hrest := ih (w ++ [b]) ws rd
    rw [List.append_assoc, List.singleton_append] at hrest
    refine Runs_append _ _ _ _ _ ?_ hrest
    by_cases hb : b = 0x27
    · subst hb
      rw [if_pos rfl]
      refine ⟨?_, ?_⟩ <;>
        simp [feed, quiet, isLineEnd, tokeniseByte, tokeniseSingleQuotes, tokeniseNoQuotes, put]
    · rw [if_neg hb]
      refine ⟨?_, ?_⟩ <;>
        simp [feed, quiet, isLineEnd, tokeniseByte, tokeniseSingleQuotes, put, hb]

theorem TokenFor_escapeArgument (a : List Nat) : TokenFor (escapeArgument a) a := by
  intro ws rd
  have h1 : Runs ⟨false, false, quoteType.none, [], ws, rd⟩ [0x27]
      ⟨true, false, quoteType.single, [], ws, rd⟩ := by
    refine ⟨?_, ?_⟩ <;> simp [feed, quiet, isLineEnd, tokeniseByte, tokeniseNoQuotes]
  have h2 := Runs_quoted_body a [] ws rd
  have h3 : Runs ⟨true, false, quoteType.single, [] ++ a, ws, rd⟩ [0x27]
      ⟨true, false, quoteType.none, a, ws, rd⟩ := by
    refine ⟨?_, ?_⟩ <;> simp [feed, quiet, isLineEnd, tokeniseByte, tokeniseSingleQuotes]
  exact Runs_append _ _ _ _ _ (Runs_append _ _ _ _ _ h1 h2) h3

theorem TokenFor_empty_single : TokenFor [0x27, 0x27] [] := by
  intro ws rd
  refine ⟨?_, ?_⟩ <;>
    simp [feed, quiet, isLineEnd, tokeniseByte, tokeniseNoQuotes, tokeniseSingleQuotes]

theorem TokenFor_empty_double : TokenFor [0x22, 0x22] [] := by
  intro ws rd
  refine ⟨?_, ?_⟩ <;>
    simp [feed, quiet, isLineEnd, tokeniseByte, tokeniseNoQuotes, tokeniseDoubleQuotes]

/-! ## Whole lines -/

theorem Runs_tokens (toks words : List (List Nat)) (h : List.Forall₂ TokenFor toks words) :
    ∀ (w : List Nat) (ws : List (List Nat)) (rd : List ReadResult),
    ∃ t1, Runs ⟨true, false, quoteType.none, w, ws, rd⟩ (toks.flatMap (fun t => [0x20] ++ t)) t1 ∧
      t1.currentQuoteType = quoteType.none ∧ t1.escapeNextChar = false ∧
      t1.endWord.words = ws ++ w :: words := by
  induction h with
  | nil =>
    intro w ws rd
    exact ⟨_, Runs_nil _, rfl, rfl, by simp [endWord]⟩
  | @cons tok w1 toks words hd _ ih =>
    intro w ws rd
    obtain ⟨t1, hr, hq, he, hw⟩ := ih w1 (ws ++ [w]) rd
    refine ⟨t1, ?_, hq, he, by rw [hw]; simp⟩
    rw [List.flatMap_cons]
    exact Runs_append _ _ _ _ _ (Runs_append _ _ _ _ _ (Runs_space w ws rd) (hd _ rd)) hr

theorem bytesReader_append (s1 s2 : List Nat) :
    bytesReader (s1 ++ s2) = bytesReader s1 ++ bytesReader s2 := by
  simp [bytesReader]

theorem wordClosed_New (rd : List ReadResult) : wordClosed (New rd) := fun _ => rfl

theorem Tokenise_bytes (body : List Nat) (start t1 : Tokeniser) (post : List ReadResult)
    (hrd : start.reader = bytesReader (body ++ [0x0A]) ++ post) (hc : wordClosed start)
    (h : Runs start body t1) (hq : t1.currentQuoteType = quoteType.none)
    (he : t1.escapeNextChar = false) :
    Tokenise start = some ((t1.endWord.words, Option.none), New post) := by
  have hreader : start.reader
      = bytesReader body ++ ({ n := 1, b := 0x0A, err := Option.none } : ReadResult) :: post := by
    rw [hrd, bytesReader_append]
    simp [bytesReader]
  have hfeed : feed start (delivered (bytesReader body)) = t1 := by
    rw [delivered_bytesReader]; exact h.1
  have hline := Tokenise_line start (bytesReader body) _ post hreader
    (bytesReader_err body) (by rw [delivered_bytesReader]; exact h.2) rfl (by simp)
    (by rw [hfeed]; exact (isLineEnd_iff _ _).2 ⟨rfl, hq, he⟩)
  rw [hline, hfeed, afterLine_eq_New t1 post (by rw [← h.1]; exact wordClosed_feed _ _ hc) hq he]

theorem Tokenise_tokens (t0 w0 : List Nat) (toks words : List (List Nat))
    (h0 : TokenFor t0 w0) (h : List.Forall₂ TokenFor toks words) :
    Tokenise (New (bytesReader (t0 ++ toks.flatMap (fun t => [0x20] ++ t) ++ [0x0A])))
      = some ((w0 :: words, Option.none), New []) := by
  obtain ⟨t1, hr, hq, he, hw⟩ := Runs_tokens toks words h w0 []
    (bytesReader (t0 ++ toks.flatMap (fun t => [0x20] ++ t) ++ [0x0A]))
  have hrun := Runs_append _ _ _ _ _ (h0 [] _) hr
  have := Tokenise_bytes _ (New (bytesReader (t0 ++ toks.flatMap (fun t => [0x20] ++ t) ++ [0x0A])))
    t1 [] (by simp [New]) (wordClosed_New _) hrun hq he
  rw [this, hw]
  rfl

theorem intercalate_space (t0 : List Nat) (toks : List (List Nat)) :
    List.intercalate [0x20] (t0 :: toks) = t0 ++ toks.flatMap (fun t => [0x20] ++ t) := by
  induction toks generalizing t0 with
  | nil => simp [List.intercalate]
  | cons t1 toks ih =>
    have := ih t1
    simp only [List.intercalate, List.intersperse, List.flatten_cons, List.flatMap_cons] at this ⊢
    rw [this]
    simp

theorem Tokenise_line_of_tokens (toks words : List (List Nat)) (hne : toks ≠ [])
    (h : List.Forall₂ TokenFor toks words) :
    Tokenise (New (bytesReader (List.intercalate [0x20] toks ++ [0x0A])))
      = some ((words, Option.none), New []) := by
  cases h with
  | nil => exact absurd rfl hne
  | cons h0 hrest =>
    rw [intercalate_space]
    exact Tokenise_tokens _ _ _ _ h0 hrest

theorem Forall₂_TokenFor_plain (ws : List (List Nat))
    (h : ∀ w ∈ ws, w ≠ [] ∧ ∀ b ∈ w, isPlain b = true) : List.Forall₂ TokenFor ws ws :=
  List.forall₂_same.2 (fun w hw => TokenFor_plain w (h w hw).1 (h w hw).2)

theorem enc_eq_escapeArgument (a : List Nat) (h : a.any needsQuoting = true) :
    enc a = escapeArgument a := by
  simp only [enc, h, if_true]
  rfl

theorem enc_eq_self (a : List Nat) (h : a.any needsQuoting = false) : enc a = a := by
  simp [enc, h]

theorem isPlain_of_not_needsQuoting (b : Nat) (h1 : needsQuoting b = false)
    (h2 : unicode.IsSpace b = false) : isPlain b = true := by
  simp only [needsQuoting, Bool.or_eq_false_iff, beq_eq_false_iff_ne, ne_eq] at h1
  exact (isPlain_iff b).2 ⟨h1.1.1.2, h1.1.2, h1.2, h2⟩

theorem TokenFor_enc (a : List Nat) (hne : a ≠ [])
    (h : a.any needsQuoting = false → ∀ b ∈ a, unicode.IsSpace b = false) :
    TokenFor (enc a) a := by
  by_cases hq : a.any needsQuoting = true
  · rw [enc_eq_escapeArgument a hq]
    exact TokenFor_escapeArgument a
  · simp only [Bool.not_eq_true] at hq
    rw [enc_eq_self a hq]
    apply TokenFor_plain a hne
    intro b hb
    apply isPlain_of_not_needsQuoting b _ (h hq b hb)
    by_contra hc
    simp only [Bool.not_eq_false] at hc
    have : a.any needsQuoting = true := List.any_eq_true.2 ⟨b, hb, hc⟩
    rw [hq] at this
    exact absurd this (by decide)

theorem roundtrip_core (tag : List Nat) (args : List (List Nat))
    (htag : tag ≠ [] ∧ ∀ b ∈ tag, isPlain b = true)
    (hargs : ∀ a ∈ args, a ≠ [] ∧
      (a.any needsQuoting = false → ∀ b ∈ a, unicode.IsSpace b = false)) :
    ∃ p, Pack (tag :: args) = some p ∧
      Tokenise (New (bytesReader p)) = some ((tag :: args, Option.none), New []) := by
  refine ⟨_, Pack_eq tag args, ?_⟩
  have h2 : List.Forall₂ TokenFor (args.map enc) args := by
    rw [List.forall₂_map_left_iff]
    exact List.forall₂_same.2 (fun a ha => TokenFor_enc a (hargs a ha).1 (hargs a ha).2)
  have := Tokenise_tokens tag tag (args.map enc) args (TokenFor_plain tag htag.1 htag.2) h2
  rw [List.flatMap_map] at this
  exact this

/-! ## Unquoted text and whitespace -/

theorem splitOnP_no_sep (p : Nat → Bool) (l : List Nat) :
    ∀ x ∈ l.splitOnP p, ∀ b ∈ x, p b = false := by
  induction l with
  | nil =>
    intro x hx b hb
    simp only [List.splitOnP_nil, List.mem_singleton] at hx
    subst hx
    simp at hb
  | cons a l ih =>
    intro x hx b hb
    rw [List.splitOnP_cons] at hx
    by_cases ha : p a = true
    · rw [if_pos ha] at hx
      rcases List.mem_cons.1 hx with rfl | hx
      · simp at hb
      · exact ih x hx b hb
    · rw [if_neg ha] at hx
      rcases hsplit : l.splitOnP p with _ | ⟨h, t⟩
      · exact absurd hsplit (List.splitOnP_ne_nil p l)
      · rw [hsplit] at hx ih
        simp only [List.modifyHead_cons, List.mem_cons] at hx
        rcases hx with rfl | hx
        · rcases List.mem_cons.1 hb with rfl | hb
          · simpa using ha
          · exact ih h (List.mem_cons_self _ _) b hb
        · exact ih x (List.mem_cons_of_mem _ hx) b hb

theorem Runs_fields (s : List Nat) : ∀ (_ : ∀ b ∈ s, b ≠ 0x27 ∧ b ≠ 0x22 ∧ b ≠ 0x5C ∧ b ≠ 0x0A)
    (iw : Bool) (w : List Nat) (ws : List (List Nat)) (rd : List ReadResult),
    (iw = true ↔ w ≠ []) →
    ∃ t1, Runs ⟨iw, false, quoteType.none, w, ws, rd⟩ s t1 ∧
      t1.currentQuoteType = quoteType.none ∧ t1.escapeNextChar = false ∧
      t1.endWord.words
        = ws ++ ((s.splitOnP unicode.IsSpace).modifyHead (fun x => w ++ x)).filter
            (fun x => !x.isEmpty) := by
  induction s with
  | nil =>
    intro _ iw w ws rd hiw
    refine ⟨_, Runs_nil _, rfl, rfl, ?_⟩
    cases iw with
    | true =>
      have hw : w ≠ [] := hiw.1 rfl
      simp [endWord, List.splitOnP_nil, hw]
    | false =>
      have hw : w = [] := by
        by_contra hne
        exact absurd (hiw.2 hne) (by decide)
      simp [endWord, List.splitOnP_nil, hw]
  | cons b s ih =>
    intro hs iw w ws rd hiw
    obtain ⟨h1, h2, h3, h4⟩ := hs b (List.mem_cons_self _ _)
    have hs2 : ∀ c ∈ s, c ≠ 0x27 ∧ c ≠ 0x22 ∧ c ≠ 0x5C ∧ c ≠ 0x0A :=
      fun c hc => hs c (List.mem_cons_of_mem _ hc)
    rw [List.splitOnP_cons]
    by_cases hsp : unicode.IsSpace b = true
    · rw [if_pos hsp]
      have hmod : (s.splitOnP unicode.IsSpace).modifyHead (fun x => ([] : List Nat) ++ x)
          = s.splitOnP unicode.IsSpace := by
        have : (fun x : List Nat => ([] : List Nat) ++ x) = id := by
          funext x; simp
        rw [this]
        cases s.splitOnP unicode.IsSpace <;> rfl
      cases iw with
      | true =>
        have hw : w ≠ [] := hiw.1 rfl
        obtain ⟨t1, hr, hq, he, hwords⟩ := ih hs2 false [] (ws ++ [w]) rd (by simp)
        refine ⟨t1, ?_, hq, he, ?_⟩
        · apply Runs_cons _ _ _ _ (isLineEnd_of_ne _ _ h4)
          have : tokeniseByte ⟨true, false, quoteType.none, w, ws, rd⟩ b
              = (false, ⟨false, false, quoteType.none, [], ws ++ [w], rd⟩) := by
            simp [tokeniseByte, tokeniseNoQuotes, endWord, h1, h2, h3, h4, hsp]
          rw [this]
          exact hr
        · rw [hwords, hmod]
          simp [hw]
      | false =>
        have hw : w = [] := by
          by_contra hne
          exact absurd (hiw.2 hne) (by decide)
        subst hw
        obtain ⟨t1, hr, hq, he, hwords⟩ := ih hs2 false [] ws rd (by simp)
        refine ⟨t1, ?_, hq, he, ?_⟩
        · apply Runs_cons _ _ _ _ (isLineEnd_of_ne _ _ h4)
          have : tokeniseByte ⟨false, false, quoteType.none, [], ws, rd⟩ b
              = (false, ⟨false, false, quoteType.none, [], ws, rd⟩) := by
            simp [tokeniseByte, tokeniseNoQuotes, endWord, h1, h2, h3, h4, hsp]
          rw [this]
          exact hr
        · rw [hwords, hmod]
          simp
    · rw [if_neg hsp]
      simp only [Bool.not_eq_true] at hsp
      have hplain : isPlain b = true := (isPlain_iff b).2 ⟨h1, h2, h3, hsp⟩
      obtain ⟨t1, hr, hq, he, hwords⟩ := ih hs2 true (w ++ [b]) ws rd (by simp)
      refine ⟨t1, ?_, hq, he, ?_⟩
      · apply Runs_cons _ _ _ _ (isLineEnd_of_ne _ _ h4)
        rw [tokeniseByte_plain b hplain]
        exact hr
      · rw [hwords, List.modifyHead_modifyHead]
        have : (fun x : List Nat => w ++ [b] ++ x) = (fun x => w ++ x) ∘ List.cons b := by
          funext x; simp
        rw [this]

theorem Tokenise_fields (s : List Nat)
    (hs : ∀ b ∈ s, b ≠ 0x27 ∧ b ≠ 0x22 ∧ b ≠ 0x5C ∧ b ≠ 0x0A) :
    Tokenise (New (bytesReader (s ++ [0x0A])))
      = some (((s.splitOnP unicode.IsSpace).filter (fun x => !x.isEmpty), Option.none),
          New []) := by
  obtain ⟨t1, hr, hq, he, hwords⟩ := Runs_fields s hs false [] []
    (bytesReader (s ++ [0x0A])) (by simp)
  have := Tokenise_bytes s (New (bytesReader (s ++ [0x0A]))) t1 [] (by simp [New])
    (wordClosed_New _) hr hq he
  rw [this, hwords]
  have hmod : (s.splitOnP unicode.IsSpace).modifyHead (fun x => ([] : List Nat) ++ x)
      = s.splitOnP unicode.IsSpace := by
    have : (fun x : List Nat => ([] : List Nat) ++ x) = id := by
      funext x; simp
    rw [this]
    cases s.splitOnP unicode.IsSpace <;> rfl
  rw [hmod]
  simp

theorem IsSpace_byte (b : Nat) (hb : b < 256)
    (h : b ∉ [0x09, 0x0A, 0x0B, 0x0C, 0x0D, 0x20, 0x85, 0xA0]) : unicode.IsSpace b = false := by
  have h255 : b ≤ 255 := by omega
  simp only [List.mem_cons, List.mem_singleton, List.not_mem_nil, or_false, not_or] at h
  obtain ⟨h1, h2, h3, h4, h5, h6, h7, h8⟩ := h
  simp [unicode.IsSpace, unicode.MaxLatin1, h255, h1, h2, h3, h4, h5, h6, h7, h8]

theorem needsQuoting_eq_false_iff (b : Nat) :
    needsQuoting b = false ↔ b ∉ [0x09, 0x0A, 0x0B, 0x0C, 0x0D, 0x20, 0x27, 0x22, 0x5C] := by
  simp only [needsQuoting, isAsciiSpace, Bool.or_eq_false_iff, beq_eq_false_iff_ne, ne_eq,
    List.mem_cons, List.mem_singleton, List.not_mem_nil, or_false, not_or]
  tauto

/-! ## Text inside quotes -/

theorem Runs_single_body (s : List Nat) : ∀ (_ : ∀ b ∈ s, b ≠ 0x27) (w : List Nat)
    (ws : List (List Nat)) (rd : List ReadResult),
    Runs ⟨true, false, quoteType.single, w, ws, rd⟩ s
      ⟨true, false, quoteType.single, w ++ s, ws, rd⟩ := by
  induction s with
  | nil =>
    intro _ w ws rd
    simpa using Runs_nil _
  | cons b s ih =>
    intro hs w ws rd
    have hb : b ≠ 0x27 := hs b (List.mem_cons_self _ _)
    apply Runs_cons _ _ _ _ (isLineEnd_quoted _ _ (by simp))
    have hstep : tokeniseByte ⟨true, false, quoteType.single, w, ws, rd⟩ b
        = (false, ⟨true, false, quoteType.single, w ++ [b], ws, rd⟩) := by
      simp [tokeniseByte, tokeniseSingleQuotes, put, hb]
    rw [hstep]
    have := ih (fun c hc => hs c (List.mem_cons_of_mem _ hc)) (w ++ [b]) ws rd
    simpa using this

theorem Runs_double_body (s : List Nat) : ∀ (w : List Nat) (ws : List (List Nat))
    (rd : List ReadResult),
    Runs ⟨true, false, quoteType.double, w, ws, rd⟩ (escapeDouble s)
      ⟨true, false, quoteType.double, w ++ s, ws, rd⟩ := by
  induction s with
  | nil =>
    intro w ws rd
    simpa [escapeDouble] using Runs_nil _
  | cons b s ih =>
    intro w ws rd
    have hcons : escapeDouble (b :: s)
        = (if b = 0x22 ∨ b = 0x5C then [0x5C, b] else [b]) ++ escapeDouble s := by
      simp [escapeDouble]
    rw [hcons]
    have hrest := ih (w ++ [b]) ws rd
    rw [List.append_assoc, List.singleton_append] at hrest
    refine Runs_append _ _ _ _ _ ?_ hrest
    by_cases hb : b = 0x22 ∨ b = 0x5C
    · rw [if_pos hb]
      refine ⟨?_, ?_⟩ <;>
        simp [feed, quiet, isLineEnd, tokeniseByte, tokeniseDoubleQuotes, put]
    · rw [if_neg hb]
      simp only [not_or] at hb
      refine ⟨?_, ?_⟩ <;>
        simp [feed, quiet, isLineEnd, tokeniseByte, tokeniseDoubleQuotes, put, hb.1, hb.2]

theorem Runs_open_quote (q : Nat) (qt : quoteType)
    (hq : (q = 0x27 ∧ qt = quoteType.single) ∨ (q = 0x22 ∧ qt = quoteType.double))
    (iw : Bool) (w : List Nat) (ws : List (List Nat)) (rd : List ReadResult) :
    Runs ⟨iw, false, quoteType.none, w, ws, rd⟩ [q] ⟨true, false, qt, w, ws, rd⟩ := by
  rcases hq with ⟨rfl, rfl⟩ | ⟨rfl, rfl⟩ <;>
    refine ⟨?_, ?_⟩ <;> simp [feed, quiet, isLineEnd, tokeniseByte, tokeniseNoQuotes]

theorem Runs_close_quote (q : Nat) (qt : quoteType)
    (hq : (q = 0x27 ∧ qt = quoteType.single) ∨ (q = 0x22 ∧ qt = quoteType.double))
    (w : List Nat) (ws : List (List Nat)) (rd : List ReadResult) :
    Runs ⟨true, false, qt, w, ws, rd⟩ [q] ⟨true, false, quoteType.none, w, ws, rd⟩ := by
  rcases hq with ⟨rfl, rfl⟩ | ⟨rfl, rfl⟩ <;>
    refine ⟨?_, ?_⟩ <;>
    simp [feed, quiet, isLineEnd, tokeniseByte, tokeniseSingleQuotes, tokeniseDoubleQuotes]

/-! ## A failing read -/

theorem Tokenise_error_state (t : Tokeniser) (pre : List ReadResult) (r : ReadResult)
    (post : List ReadResult) (e : Error) (hr : t.reader = pre ++ r :: post)
    (hgood : ∀ x ∈ pre, x.err = Option.none) (hq : quiet t (delivered pre) = true)
    (he : r.err = some e) :
    Tokenise t = some (([], some e), (feed t (delivered pre)).setReader post) := by
  apply Tokenise_of_loop t pre (r :: post) _ hr
  rw [TokeniseLoop_run pre t (r :: post) 0 hgood hq hr]
  exact TokeniseLoop_err 0 _ r post e he rfl

theorem TokeniseLoop_eq_Tokenise (t : Tokeniser) (k : Nat) :
    TokeniseLoop (t.reader.length + 1 + k) t = Tokenise t := by
  have h := Tokenise_returns t
  rcases hT : Tokenise t with _ | x
  · rw [hT] at h
    exact absurd h (by decide)
  · exact TokeniseLoop_mono _ t x hT k

theorem Tokenise_resume (t : Tokeniser) (pre post : List ReadResult)
    (hgood : ∀ x ∈ pre, x.err = Option.none) (hq : quiet t (delivered pre) = true) :
    Tokenise ((feed t (delivered pre)).setReader post) = Tokenise (t.setReader (pre ++ post)) := by
  have hrun := TokeniseLoop_run pre (t.setReader (pre ++ post)) post post.length hgood
    (by rw [quiet_setReader]; exact hq) rfl
  rw [feed_setReader, setReader_setReader] at hrun
  have hlen : (delivered pre).length ≤ pre.length := delivered_length_le pre
  have h1 := TokeniseLoop_eq_Tokenise (t.setReader (pre ++ post))
    (pre.length - (delivered pre).length)
  have hfuel : (t.setReader (pre ++ post)).reader.length + 1 + (pre.length - (delivered pre).length)
      = post.length + 1 + (delivered pre).length + (2 * (pre.length - (delivered pre).length)) := by
    show (pre ++ post).length + 1 + _ = _
    rw [List.length_append]
    omega
  have h2 := TokeniseLoop_eq_Tokenise ((feed t (delivered pre)).setReader post) 0
  have h3 : ((feed t (delivered pre)).setReader post).reader.length + 1 + 0 = post.length + 1 :=
    rfl
  rw [h3] at h2
  rw [← h2, ← hrun]
  rcases hT : TokeniseLoop (post.length + 1 + (delivered pre).length) (t.setReader (pre ++ post))
    with _ | x
  · rw [hT] at hrun
    rw [← hrun] at h2
    have := Tokenise_returns ((feed t (delivered pre)).setReader post)
    rw [← h2] at this
    exact absurd this (by decide)
  · have := TokeniseLoop_mono _ _ x hT (2 * (pre.length - (delivered pre).length))
    rw [← hfuel, h1] at this
    exact this.symm

theorem readByteLoop_skip (zeros : List ReadResult) : ∀ (bs : Nat) (r : ReadResult)
    (post : List ReadResult), (∀ x ∈ zeros, x.n = 0 ∧ x.err = Option.none) → r.n ≠ 0 →
    readByteLoop bs (zeros ++ r :: post) = (r.b, r.err, post) := by
  induction zeros with
  | nil =>
    intro bs r post _ hn
    simp [readByteLoop, hn]
  | cons x zeros ih =>
    intro bs r post hz hn
    obtain ⟨h0, he⟩ := hz x (List.mem_cons_self _ _)
    simp only [List.cons_append, readByteLoop, h0, he, and_self, if_true]
    exact ih bs r post (fun y hy => hz y (List.mem_cons_of_mem _ hy)) hn

/-! ## One packed message, one line -/

theorem Runs_keeps_unquoted (s : List Nat) :
    ∀ (_ : ∀ b ∈ s, b ≠ 0x27 ∧ b ≠ 0x22 ∧ b ≠ 0x5C ∧ b ≠ 0x0A) (t : Tokeniser),
    isUnquoted t → ∃ t1, Runs t s t1 ∧ isUnquoted t1 := by
  induction s with
  | nil => intro _ t ht; exact ⟨t, Runs_nil t, ht⟩
  | cons b s ih =>
    intro hs t ht
    obtain ⟨h1, h2, h3, h4⟩ := hs b (List.mem_cons_self _ _)
    have hnext : isUnquoted (t.tokeniseByte b).2 := by
      obtain ⟨iw, esc, q, w, ws, rd⟩ := t
      obtain ⟨hq, he⟩ := ht
      simp only at hq he
      subst hq he
      cases iw <;>
        simp [isUnquoted, tokeniseByte, tokeniseNoQuotes, put, endWord, h1, h2, h3, h4] <;>
        split <;> simp
    obtain ⟨t1, hr, hu⟩ := ih (fun c hc => hs c (List.mem_cons_of_mem _ hc)) _ hnext
    exact ⟨t1, Runs_cons _ _ _ _ (isLineEnd_of_ne _ _ h4) hr, hu⟩

theorem Runs_escapeArgument_unquoted (a : List Nat) (t : Tokeniser) (ht : isUnquoted t) :
    ∃ t1, Runs t (escapeArgument a) t1 ∧ isUnquoted t1 := by
  obtain ⟨iw, esc, q, w, ws, rd⟩ := t
  obtain ⟨hq, he⟩ := ht
  simp only at hq he
  subst hq he
  have r1 := Runs_open_quote 0x27 quoteType.single (Or.inl ⟨rfl, rfl⟩) iw w ws rd
  have r2 := Runs_quoted_body a w ws rd
  have r3 := Runs_close_quote 0x27 quoteType.single (Or.inl ⟨rfl, rfl⟩) (w ++ a) ws rd
  exact ⟨_, Runs_append _ _ _ _ _ (Runs_append _ _ _ _ _ r1 r2) r3, rfl, rfl⟩

theorem not_needsQuoting_bytes (a : List Nat) (h : a.any needsQuoting = false) :
    ∀ b ∈ a, b ≠ 0x27 ∧ b ≠ 0x22 ∧ b ≠ 0x5C ∧ b ≠ 0x0A := by
  intro b hb
  have hb2 : needsQuoting b = false := by
    by_contra hc
    simp only [Bool.not_eq_false] at hc
    have : a.any needsQuoting = true := List.any_eq_true.2 ⟨b, hb, hc⟩
    rw [h] at this
    exact absurd this (by decide)
  have := (needsQuoting_eq_false_iff b).1 hb2
  simp only [List.mem_cons, List.mem_singleton, List.not_mem_nil, or_false, not_or] at this
  exact ⟨this.2.2.2.2.2.2.1, this.2.2.2.2.2.2.2.1, this.2.2.2.2.2.2.2.2, this.2.1⟩

theorem Runs_enc_unquoted (a : List Nat) (t : Tokeniser) (ht : isUnquoted t) :
    ∃ t1, Runs t (enc a) t1 ∧ isUnquoted t1 := by
  by_cases hq : a.any needsQuoting = true
  · rw [enc_eq_escapeArgument a hq]
    exact Runs_escapeArgument_unquoted a t ht
  · simp only [Bool.not_eq_true] at hq
    rw [enc_eq_self a hq]
    exact Runs_keeps_unquoted a (not_needsQuoting_bytes a hq) t ht

theorem Runs_args_unquoted (args : List (List Nat)) : ∀ (t : Tokeniser), isUnquoted t →
    ∃ t1, Runs t (args.flatMap (fun a => [0x20] ++ enc a)) t1 ∧ isUnquoted t1 := by
  induction args with
  | nil => intro t ht; exact ⟨t, Runs_nil t, ht⟩
  | cons a args ih =>
    intro t ht
    obtain ⟨t1, r1, u1⟩ := Runs_keeps_unquoted [0x20] (by decide) t ht
    obtain ⟨t2, r2, u2⟩ := Runs_enc_unquoted a t1 u1
    obtain ⟨t3, r3, u3⟩ := ih t2 u2
    rw [List.flatMap_cons]
    exact ⟨t3, Runs_append _ _ _ _ _ (Runs_append _ _ _ _ _ r1 r2) r3, u3⟩

theorem quiet_split (t : Tokeniser) (pre : List Nat) (b : Nat) (post : List Nat)
    (h : quiet t (pre ++ b :: post) = true) : ((feed t pre).tokeniseByte b).1 = false := by
  rw [quiet_append] at h
  simp only [quiet, Bool.and_eq_true, Bool.not_eq_true'] at h
  rw [tokeniseByte_flag]
  exact h.2.1

theorem endWord_isUnquoted (t : Tokeniser) (h : isUnquoted t) : isUnquoted t.endWord := by
  obtain ⟨iw, esc, q, w, ws, rd⟩ := t
  cases iw <;> simpa [isUnquoted, endWord] using h

/-! ## `Message.String` -/

theorem stringLoop_eq (rest : List (List Nat)) : ∀ (outstr : List Nat),
    stringLoop outstr rest = outstr ++ rest.flatMap (fun a => [0x20] ++ a) := by
  induction rest with
  | nil => intro outstr; simp [stringLoop]
  | cons a rest ih =>
    intro outstr
    simp only [stringLoop, ih, List.flatMap_cons, List.append_assoc]

theorem enc_length (a : List Nat) :
    a.length ≤ (enc a).length ∧ (a.any needsQuoting = true → a.length < (enc a).length) := by
  have hflat : ∀ l : List Nat, l.length
      ≤ (l.flatMap (fun b => if b = 0x27 then [0x27, 0x5C, 0x27, 0x27] else [b])).length := by
    intro l
    induction l with
    | nil => simp
    | cons b l ih =>
      simp only [List.flatMap_cons, List.length_append, List.length_cons]
      split <;> simp only [List.length_cons, List.length_nil] <;> omega
  by_cases hq : a.any needsQuoting = true
  · have := hflat a
    simp only [enc, hq, if_true, List.length_append, List.length_cons, List.length_nil]
    constructor
    · omega
    · intro _; omega
  · simp only [Bool.not_eq_true] at hq
    rw [enc_eq_self a hq]
    exact ⟨le_refl _, fun h => by rw [hq] at h; exact absurd h (by decide)⟩

theorem flatMap_enc_length (rest : List (List Nat)) :
    (rest.flatMap (fun a => [0x20] ++ a)).length
        ≤ (rest.flatMap (fun a => [0x20] ++ enc a)).length ∧
    ((rest.flatMap (fun a => [0x20] ++ a)).length
        = (rest.flatMap (fun a => [0x20] ++ enc a)).length →
      ∀ a ∈ rest, a.any needsQuoting = false) := by
  induction rest with
  | nil => simp
  | cons a rest ih =>
    obtain ⟨h1, h2⟩ := enc_length a
    simp only [List.flatMap_cons, List.length_append, List.length_cons, List.length_nil]
    constructor
    · omega
    · intro heq b hb
      rcases List.mem_cons.1 hb with rfl | hb
      · by_contra hc
        simp only [Bool.not_eq_false] at hc
        have := h2 hc
        omega
      · exact ih.2 (by omega) b hb

/-! ## Feature names -/

theorem lookupLoop_not_mem (word : List Nat) (l : List (List Nat)) : ∀ (i : Nat),
    word ∉ l → lookupLoop word i l = FtUnknown := by
  induction l with
  | nil => intro i _; rfl
  | cons str rest ih =>
    intro i h
    simp only [List.mem_cons, not_or] at h
    have hne : ¬ str = word := fun hc => h.1 hc.symm
    simp only [lookupLoop, hne, if_false]
    exact ih (i + 1) h.2

/-! ## Errors of `Tokenise` and of `Pack` -/

/-- C5: for every tokeniser and every source behind it, `Tokenise` returns; it returns the
error `e` exactly when the source reports `e` (the end of the stream being `io.EOF`) before
a read has delivered a newline in the unquoted state with the escape flag clear; a failing
call returns the empty word list; and it returns the line `ws` without error exactly when
such a newline is delivered first, `ws` being the words completed up to that newline. -/
theorem Tokenise_error_iff (t : Tokeniser) :
    (Tokenise t).isSome = true ∧
    (∀ e, (∃ ws t1, Tokenise t = some ((ws, some e), t1)) ↔ FailsBeforeLine t e) ∧
    (∀ ws e t1, Tokenise t = some ((ws, some e), t1) → ws = []) ∧
    (∀ ws, (∃ t1, Tokenise t = some ((ws, Option.none), t1)) ↔ LineCompleted t ws) := by
  rcases fails_or_line t.reader t rfl with ⟨e0, h0⟩ | ⟨ws0, h0⟩
  · obtain ⟨t0, ht0⟩ := Tokenise_fails t e0 h0
    refine ⟨by rw [ht0]; rfl, ?_, ?_, ?_⟩
    · intro e
      constructor
      · rintro ⟨ws, t1, h⟩
        rw [ht0] at h
        simp only [Option.some.injEq, Prod.mk.injEq] at h
        rw [← h.1.2]
        exact h0
      · intro h
        obtain ⟨t1, ht1⟩ := Tokenise_fails t e h
        exact ⟨[], t1, ht1⟩
    · intro ws e t1 h
      rw [ht0] at h
      simp only [Option.some.injEq, Prod.mk.injEq] at h
      exact h.1.1.symm
    · intro ws
      constructor
      · rintro ⟨t1, h⟩
        rw [ht0] at h
        simp at h
      · intro h
        exact Tokenise_completed t ws h
  · obtain ⟨t0, ht0⟩ := Tokenise_completed t ws0 h0
    refine ⟨by rw [ht0]; rfl, ?_, ?_, ?_⟩
    · intro e
      constructor
      · rintro ⟨ws, t1, h⟩
        rw [ht0] at h
        simp at h
      · intro h
        obtain ⟨t1, ht1⟩ := Tokenise_fails t e h
        exact ⟨[], t1, ht1⟩
    · intro ws e t1 h
      rw [ht0] at h
      simp at h
    · intro ws
      constructor
      · rintro ⟨t1, h⟩
        rw [ht0] at h
        simp only [Option.some.injEq, Prod.mk.injEq] at h
        rw [← h.1.1]
        exact h0
      · intro h
        exact Tokenise_completed t ws h

/-- C6: `Pack` fails (the panic of `m[0]`) exactly on the empty message; on every other
message it returns bytes. -/
theorem Pack_none_iff (m : Message) :
    (Pack m = Option.none ↔ m = []) ∧
    (∀ (m0 : List Nat) (rest : List (List Nat)), ∃ out, Pack (m0 :: rest) = some out) := by
  constructor
  · cases m with
    | nil => simp [Pack]
    | cons m0 rest => simp [Pack]
  · intro m0 rest
    exact ⟨_, rfl⟩

/-- C9: after any number of successful `Tokenise` calls in a row on a freshly created
tokeniser, the tokeniser is again in its initial state (empty word buffer, no open word,
unquoted, escape flag clear, no completed words) in front of the rest of the source. -/
theorem Tokenise_resets_state (reader : List ReadResult) (n : Nat) (t1 : Tokeniser)
    (lines : List (List (List Nat))) (h : tokeniseLines n (New reader) = some (lines, t1)) :
    t1 = New t1.reader :=
  tokeniseLines_state n (New reader) t1 lines rfl h

/-- Witness for C9: two lines, `a` and `b c`, read in two successful calls. -/
theorem Tokenise_resets_state_witness :
    tokeniseLines 2 (New (bytesReader [0x61, 0x0A, 0x62, 0x20, 0x63, 0x0A]))
        = some ([[[0x61]], [[0x62], [0x63]]], New []) ∧
      New [] = New (New []).reader :=
  ⟨by decide, Tokenise_resets_state (bytesReader [0x61, 0x0A, 0x62, 0x20, 0x63, 0x0A]) 2 (New [])
    [[[0x61]], [[0x62], [0x63]]] (by decide)⟩

/-- C3: `Pack` of a non-empty message is its first word as it stands, then for each later
word one space and the encoding `enc` of the word, then one newline; a word without ASCII
whitespace, quote or backslash encodes to itself; and the message `uuid`, `fload`,
`C:\silly\windows\is\silly` packs to the line of the test in `message_test.go`. -/
theorem Pack_format (m0 : List Nat) (rest : List (List Nat)) :
    Pack (m0 :: rest) = some (m0 ++ rest.flatMap (fun a => [0x20] ++ enc a) ++ [0x0A]) ∧
    (∀ a : List Nat, a.any needsQuoting = false → enc a = a) ∧
    Pack [[0x75, 0x75, 0x69, 0x64], [0x66, 0x6C, 0x6F, 0x61, 0x64],
        [0x43, 0x3A, 0x5C, 0x73, 0x69, 0x6C, 0x6C, 0x79, 0x5C, 0x77, 0x69, 0x6E, 0x64, 0x6F,
         0x77, 0x73, 0x5C, 0x69, 0x73, 0x5C, 0x73, 0x69, 0x6C, 0x6C, 0x79]]
      = some [0x75, 0x75, 0x69, 0x64, 0x20, 0x66, 0x6C, 0x6F, 0x61, 0x64, 0x20, 0x27,
          0x43, 0x3A, 0x5C, 0x73, 0x69, 0x6C, 0x6C, 0x79, 0x5C, 0x77, 0x69, 0x6E, 0x64, 0x6F,
          0x77, 0x73, 0x5C, 0x69, 0x73, 0x5C, 0x73, 0x69, 0x6C, 0x6C, 0x79, 0x27, 0x0A] := by
  refine ⟨Pack_eq m0 rest, ?_, by decide⟩
  intro a ha
  simp [enc, ha]

/-! ## Round trips -/

/-- C1, the claim as stated fails: the one-word message `a b` has no newline in any word, yet
its packed line `a b` plus newline decodes to the two words `a` and `b`. -/
theorem roundtrip_counterexample :
    (∀ w ∈ ([[0x61, 0x20, 0x62]] : List (List Nat)), 0x0A ∉ w) ∧
    Pack [[0x61, 0x20, 0x62]] = some [0x61, 0x20, 0x62, 0x0A] ∧
    Tokenise (New (bytesReader [0x61, 0x20, 0x62, 0x0A]))
      = some (([[0x61], [0x62]], Option.none), New []) ∧
    ([[0x61], [0x62]] : List (List Nat)) ≠ [[0x61, 0x20, 0x62]] := by
  decide

/-- C1, amended: a message none of whose words contains a newline byte, whose tag is not
empty and holds no quote, backslash or byte the tokeniser tests as whitespace, and whose
arguments are not empty and, when `Pack` leaves them unquoted, hold no byte the tokeniser
tests as whitespace, is returned unchanged and without error by `Tokenise` reading its
`Pack`. -/
theorem roundtrip_no_newline (tag : List Nat) (args : List (List Nat))
    (_hnl : ∀ w ∈ tag :: args, 0x0A ∉ w)
    (htag : tag ≠ [] ∧ ∀ b ∈ tag, isPlain b = true)
    (hargs : ∀ a ∈ args, a ≠ [] ∧
      (a.any needsQuoting = false → ∀ b ∈ a, unicode.IsSpace b = false)) :
    ∃ p, Pack (tag :: args) = some p ∧
      Tokenise (New (bytesReader p)) = some ((tag :: args, Option.none), New []) :=
  roundtrip_core tag args htag hargs

/-- Witness for C1, amended: the message `a`, `b c`, `d`. -/
theorem roundtrip_no_newline_witness :
    ∃ p, Pack [[0x61], [0x62, 0x20, 0x63], [0x64]] = some p ∧
      Tokenise (New (bytesReader p))
        = some (([[0x61], [0x62, 0x20, 0x63], [0x64]], Option.none), New []) :=
  roundtrip_no_newline [0x61] [[0x62, 0x20, 0x63], [0x64]] (by decide) (by decide) (by decide)

/-- C2, the code at two inputs the claim covers. The argument U+00E0 (bytes C3 A0) needs no
quoting for `Pack`, but the unquoted tokeniser tests its byte A0 as whitespace and returns
the argument cut down to the byte C3; and an empty argument is packed as nothing at all, so
it is lost. In both cases the tag `a` is plain. -/
theorem Pack_not_left_inverse :
    Pack [[0x61], [0xC3, 0xA0]] = some [0x61, 0x20, 0xC3, 0xA0, 0x0A] ∧
    Tokenise (New (bytesReader [0x61, 0x20, 0xC3, 0xA0, 0x0A]))
      = some (([[0x61], [0xC3]], Option.none), New []) ∧
    Pack [[0x61], []] = some [0x61, 0x20, 0x0A] ∧
    Tokenise (New (bytesReader [0x61, 0x20, 0x0A])) = some (([[0x61]], Option.none), New []) := by
  decide

/-- C4, the code at an input the claim covers: the word `a`, U+00A0, `b` (bytes 61 C2 A0 62)
has no ASCII whitespace byte, quote or backslash, yet `Tokenise` splits it at the byte A0 into
the two words 61 C2 and 62. -/
theorem non_ascii_whitespace_splits :
    ([0x61, 0xC2, 0xA0, 0x62] : List Nat).any needsQuoting = false ∧
    Tokenise (New (bytesReader [0x61, 0xC2, 0xA0, 0x62, 0x0A]))
      = some (([[0x61, 0xC2], [0x62]], Option.none), New []) ∧
    unicode.IsSpace 0xA0 = true ∧ unicode.IsSpace 0x85 = true := by
  decide

/-- C10: a message of bytes whose tag is not empty and has none of the bytes tab, LF, VT, FF,
CR, space, 0x85, 0xA0, single quote, double quote, backslash, whose arguments are not empty,
and whose arguments without any of the ASCII bytes tab, LF, VT, FF, CR, space, single quote,
double quote, backslash have no byte 0x85 or 0xA0 either, is returned unchanged and without
error by `Tokenise` reading its `Pack`; newline bytes in arguments are allowed. -/
theorem roundtrip_restricted (tag : List Nat) (args : List (List Nat))
    (hbytes : ∀ w ∈ tag :: args, ∀ b ∈ w, b < 256)
    (htag : tag ≠ [] ∧ ∀ b ∈ tag,
      b ∉ [0x09, 0x0A, 0x0B, 0x0C, 0x0D, 0x20, 0x85, 0xA0, 0x27, 0x22, 0x5C])
    (hne : ∀ a ∈ args, a ≠ [])
    (h3 : ∀ a ∈ args, (∀ b ∈ a, b ∉ [0x09, 0x0A, 0x0B, 0x0C, 0x0D, 0x20, 0x27, 0x22, 0x5C]) →
      ∀ b ∈ a, b ≠ 0x85 ∧ b ≠ 0xA0) :
    ∃ p, Pack (tag :: args) = some p ∧
      Tokenise (New (bytesReader p)) = some ((tag :: args, Option.none), New []) := by
  apply roundtrip_core tag args
  · refine ⟨htag.1, fun b hb => ?_⟩
    have hlt := hbytes tag (List.mem_cons_self _ _) b hb
    have hmem := htag.2 b hb
    simp only [List.mem_cons, List.mem_singleton, List.not_mem_nil, or_false, not_or] at hmem
    obtain ⟨m1, m2, m3, m4, m5, m6, m7, m8, m9, m10, m11⟩ := hmem
    refine (isPlain_iff b).2 ⟨m9, m10, m11, IsSpace_byte b hlt ?_⟩
    simp [m1, m2, m3, m4, m5, m6, m7, m8]
  · intro a ha
    refine ⟨hne a ha, fun hq b hb => ?_⟩
    have hlt := hbytes a (List.mem_cons_of_mem _ ha) b hb
    have hall : ∀ c ∈ a, c ∉ [0x09, 0x0A, 0x0B, 0x0C, 0x0D, 0x20, 0x27, 0x22, 0x5C] := by
      intro c hc
      apply (needsQuoting_eq_false_iff c).1
      by_contra hcon
      simp only [Bool.not_eq_false] at hcon
      have : a.any needsQuoting = true := List.any_eq_true.2 ⟨c, hc, hcon⟩
      rw [hq] at this
      exact absurd this (by decide)
    have hhigh := h3 a ha hall b hb
    have hmem := hall b hb
    simp only [List.mem_cons, List.mem_singleton, List.not_mem_nil, or_false, not_or] at hmem
    obtain ⟨m1, m2, m3, m4, m5, m6, _, _, _⟩ := hmem
    apply IsSpace_byte b hlt
    simp [m1, m2, m3, m4, m5, m6, hhigh.1, hhigh.2]

/-- Witness for C10: the tag `a` with the arguments `b`, newline, U+00A0 (quoted by `Pack`
because of the newline) and `c`. -/
theorem roundtrip_restricted_witness :
    ∃ p, Pack [[0x61], [0x62, 0x0A, 0xC2, 0xA0], [0x63]] = some p ∧
      Tokenise (New (bytesReader p))
        = some (([[0x61], [0x62, 0x0A, 0xC2, 0xA0], [0x63]], Option.none), New []) :=
  roundtrip_restricted [0x61] [[0x62, 0x0A, 0xC2, 0xA0], [0x63]]
    (by decide) (by decide) (by decide) (by decide)

/-! ## Empty arguments and whitespace -/

/-- Empty arguments between words that hold no quote, no backslash and no byte the tokeniser
tests as whitespace (so none of the bytes 0x85 and 0xA0 either): the token of two single
quotes, and likewise the token of two double quotes, decodes to one empty word; and each of
the two tokens alone on a line gives one empty word, not zero words. -/
theorem empty_argument_preserved (ws1 ws2 : List (List Nat))
    (h1 : ∀ w ∈ ws1, w ≠ [] ∧ ∀ b ∈ w, isPlain b = true)
    (h2 : ∀ w ∈ ws2, w ≠ [] ∧ ∀ b ∈ w, isPlain b = true) :
    Tokenise (New (bytesReader (List.intercalate [0x20] (ws1 ++ [[0x27, 0x27]] ++ ws2) ++ [0x0A])))
      = some ((ws1 ++ [[]] ++ ws2, Option.none), New []) ∧
    Tokenise (New (bytesReader (List.intercalate [0x20] (ws1 ++ [[0x22, 0x22]] ++ ws2) ++ [0x0A])))
      = some ((ws1 ++ [[]] ++ ws2, Option.none), New []) ∧
    Tokenise (New (bytesReader [0x27, 0x27, 0x0A])) = some (([[]], Option.none), New []) ∧
    Tokenise (New (bytesReader [0x22, 0x22, 0x0A])) = some (([[]], Option.none), New []) := by
  have f1 := Forall₂_TokenFor_plain ws1 h1
  have f2 := Forall₂_TokenFor_plain ws2 h2
  refine ⟨?_, ?_, by decide, by decide⟩
  · apply Tokenise_line_of_tokens _ _ (by simp)
    exact List.rel_append (List.rel_append f1 (List.Forall₂.cons TokenFor_empty_single
      List.Forall₂.nil)) f2
  · apply Tokenise_line_of_tokens _ _ (by simp)
    exact List.rel_append (List.rel_append f1 (List.Forall₂.cons TokenFor_empty_double
      List.Forall₂.nil)) f2

/-- An instance of `empty_argument_preserved`: the words `uuid` before and `x`, `y` after the
empty token. -/
theorem empty_argument_preserved_witness :
    Tokenise (New (bytesReader (List.intercalate [0x20]
        ([[0x75, 0x75, 0x69, 0x64]] ++ [[0x27, 0x27]] ++ [[0x78], [0x79]]) ++ [0x0A])))
      = some (([[0x75, 0x75, 0x69, 0x64]] ++ [[]] ++ [[0x78], [0x79]], Option.none), New []) :=
  (empty_argument_preserved [[0x75, 0x75, 0x69, 0x64]] [[0x78], [0x79]]
    (by decide) (by decide)).1

/-- C7, the code at an input the claim covers: the word U+00E0 (bytes C3 A0) is not empty and
has no ASCII whitespace byte, quote or backslash, yet the line made of that word, a space
and the token of two single quotes decodes to the words C3 and empty, not to the word C3 A0
and empty: the tokeniser ends the word at the byte A0. The token of two double quotes fares
the same. -/
theorem empty_argument_word_cut :
    (∀ w ∈ ([[0xC3, 0xA0]] : List (List Nat)), w ≠ [] ∧ w.any needsQuoting = false) ∧
    Tokenise (New (bytesReader
        (List.intercalate [0x20] ([[0xC3, 0xA0]] ++ [[0x27, 0x27]] ++ []) ++ [0x0A])))
      = some (([[0xC3], []], Option.none), New []) ∧
    Tokenise (New (bytesReader
        (List.intercalate [0x20] ([[0xC3, 0xA0]] ++ [[0x22, 0x22]] ++ []) ++ [0x0A])))
      = some (([[0xC3], []], Option.none), New []) ∧
    ([[0xC3], []] : List (List Nat)) ≠ [[0xC3, 0xA0]] ++ [[]] ++ [] := by
  decide

/-- C8: for a byte string `s` without single quote, double quote, backslash or newline,
`Tokenise` reading `s` and a newline returns, in order, the non-empty pieces into which the
bytes the tokeniser tests as whitespace cut `s`; no returned word is empty or holds such a
byte; and `OHAI` plus newline decodes to the single word `OHAI`. -/
theorem whitespace_collapsing (s : List Nat)
    (hs : ∀ b ∈ s, b ≠ 0x27 ∧ b ≠ 0x22 ∧ b ≠ 0x5C ∧ b ≠ 0x0A) :
    Tokenise (New (bytesReader (s ++ [0x0A])))
      = some (((s.splitOnP unicode.IsSpace).filter (fun x => !x.isEmpty), Option.none),
          New []) ∧
    (∀ w ∈ (s.splitOnP unicode.IsSpace).filter (fun x => !x.isEmpty),
      w ≠ [] ∧ ∀ b ∈ w, unicode.IsSpace b = false) ∧
    Tokenise (New (bytesReader [0x4F, 0x48, 0x41, 0x49, 0x0A]))
      = some (([[0x4F, 0x48, 0x41, 0x49]], Option.none), New []) := by
  refine ⟨Tokenise_fields s hs, ?_, by decide⟩
  intro w hw
  rw [List.mem_filter] at hw
  refine ⟨?_, splitOnP_no_sep _ s w hw.1⟩
  intro hnil
  rw [hnil] at hw
  simp at hw

/-- Witness for C8: two spaces, `a`, tab, space, `b`, space. -/
theorem whitespace_collapsing_witness :
    Tokenise (New (bytesReader ([0x20, 0x20, 0x61, 0x09, 0x20, 0x62, 0x20] ++ [0x0A])))
      = some (([[0x61], [0x62]], Option.none), New []) := by
  have h := (whitespace_collapsing [0x20, 0x20, 0x61, 0x09, 0x20, 0x62, 0x20] (by decide)).1
  rw [h]
  decide

/-! ## Quoting and escaping, byte by byte -/

/-- C11: for every byte string `w`, `Tokenise` reading `escapeArgument w` and a newline
returns the single word `w`; and the line of `message_test.go` made of `OHAI`, a space and
the escaped form of the word a, quote, bar, quote, b decodes to `OHAI` and that word. -/
theorem escapeArgument_decodes (w : List Nat) :
    Tokenise (New (bytesReader (escapeArgument w ++ [0x0A])))
      = some (([w], Option.none), New []) ∧
    Tokenise (New (bytesReader [0x4F, 0x48, 0x41, 0x49, 0x20, 0x27, 0x61, 0x27, 0x5C, 0x27,
        0x27, 0x62, 0x61, 0x72, 0x27, 0x5C, 0x27, 0x27, 0x62, 0x27, 0x0A]))
      = some (([[0x4F, 0x48, 0x41, 0x49], [0x61, 0x27, 0x62, 0x61, 0x72, 0x27, 0x62]],
          Option.none), New []) := by
  refine ⟨?_, by decide⟩
  have := Tokenise_tokens (escapeArgument w) w [] [] (TokenFor_escapeArgument w)
    List.Forall₂.nil
  simpa using this

/-- C12: `tokeniseByte` signals a finished line exactly when the escape flag is clear, the
quote state is unquoted and the byte is a newline; a newline that arrives inside quotes or
right after a backslash is appended to the current word, which it opens, and the line goes
on. -/
theorem tokeniseByte_lineDone_iff (t : Tokeniser) (b : Nat) :
    ((t.tokeniseByte b).1 = true ↔
      t.escapeNextChar = false ∧ t.currentQuoteType = quoteType.none ∧ b = 0x0A) ∧
    (t.escapeNextChar = true ∨ t.currentQuoteType ≠ quoteType.none →
      t.tokeniseByte 0x0A
        = (false, { t with inWord := true, word := t.word ++ [0x0A], escapeNextChar := false })) := by
  constructor
  · rw [tokeniseByte_flag, isLineEnd_iff]
    tauto
  · obtain ⟨iw, esc, q, w, ws, rd⟩ := t
    cases esc <;> cases q <;>
      simp [tokeniseByte, tokeniseSingleQuotes, tokeniseDoubleQuotes, put]

/-- C13: with the escape flag set, `tokeniseByte` appends the byte, whatever it is, to the
word buffer, marks a word as open, clears the escape flag, keeps the quote state, the list
of completed words and the source, and does not signal a finished line. -/
theorem tokeniseByte_escaped (t : Tokeniser) (b : Nat) (h : t.escapeNextChar = true) :
    t.tokeniseByte b
      = (false, { inWord := true, escapeNextChar := false,
                  currentQuoteType := t.currentQuoteType, word := t.word ++ [b],
                  words := t.words, reader := t.reader }) := by
  obtain ⟨iw, esc, q, w, ws, rd⟩ := t
  simp only at h
  subst h
  simp [tokeniseByte, put]

/-- Witness for C13: a newline right after a backslash inside double quotes. -/
theorem tokeniseByte_escaped_witness :
    tokeniseByte ⟨true, true, quoteType.double, [0x61], [[0x62]], []⟩ 0x0A
      = (false, ⟨true, false, quoteType.double, [0x61, 0x0A], [[0x62]], []⟩) :=
  tokeniseByte_escaped ⟨true, true, quoteType.double, [0x61], [[0x62]], []⟩ 0x0A rfl

/-- Single quotes with unquoted text around them: for a byte string `s` without single quote
and byte strings `p` and `q`, empty or not, that hold no quote, no backslash and no byte the
tokeniser tests as whitespace (so none of the bytes 0x85 and 0xA0 either), `Tokenise`
reading `p`, a single quote, `s`, a single quote, `q` and a newline returns the single word
`p ++ s ++ q`: backslashes, double quotes, whitespace and newlines inside the single quotes
are kept, and the unquoted text around them joins the same word. -/
theorem single_quoted_word (p s q : List Nat) (hp : ∀ b ∈ p, isPlain b = true)
    (hs : ∀ b ∈ s, b ≠ 0x27) (hq : ∀ b ∈ q, isPlain b = true) :
    Tokenise (New (bytesReader (p ++ [0x27] ++ s ++ [0x27] ++ q ++ [0x0A])))
      = some (([p ++ s ++ q], Option.none), New []) := by
  have r1 := Runs_plain p hp false [] [] (bytesReader (p ++ [0x27] ++ s ++ [0x27] ++ q ++ [0x0A]))
  have r2 := Runs_open_quote 0x27 quoteType.single (Or.inl ⟨rfl, rfl⟩) (false || !p.isEmpty)
    ([] ++ p) [] (bytesReader (p ++ [0x27] ++ s ++ [0x27] ++ q ++ [0x0A]))
  have r3 := Runs_single_body s hs ([] ++ p) []
    (bytesReader (p ++ [0x27] ++ s ++ [0x27] ++ q ++ [0x0A]))
  have r4 := Runs_close_quote 0x27 quoteType.single (Or.inl ⟨rfl, rfl⟩) ([] ++ p ++ s) []
    (bytesReader (p ++ [0x27] ++ s ++ [0x27] ++ q ++ [0x0A]))
  have r5 := Runs_plain q hq true ([] ++ p ++ s) []
    (bytesReader (p ++ [0x27] ++ s ++ [0x27] ++ q ++ [0x0A]))
  have hrun := Runs_append _ _ _ _ _ (Runs_append _ _ _ _ _ (Runs_append _ _ _ _ _
    (Runs_append _ _ _ _ _ r1 r2) r3) r4) r5
  have := Tokenise_bytes _ (New (bytesReader (p ++ [0x27] ++ s ++ [0x27] ++ q ++ [0x0A])))
    _ [] (by simp [New]) (wordClosed_New _) hrun rfl rfl
  rw [this]
  simp [endWord]

/-- An instance of `single_quoted_word`: the line made of `ab`, quote, `cd`, quote, `ef` is
the one word `abcdef`. -/
theorem single_quoted_word_witness :
    Tokenise (New (bytesReader ([0x61, 0x62] ++ [0x27] ++ [0x63, 0x64] ++ [0x27]
        ++ [0x65, 0x66] ++ [0x0A])))
      = some (([[0x61, 0x62] ++ [0x63, 0x64] ++ [0x65, 0x66]], Option.none), New []) :=
  single_quoted_word [0x61, 0x62] [0x63, 0x64] [0x65, 0x66] (by decide) (by decide) (by decide)

/-- C14, the code at an input the claim covers: `p` is the word U+00E0 (bytes C3 A0), without
ASCII whitespace byte, quote or backslash, `s` is `cd` and `q` is empty; `Tokenise` reading
`p`, a single quote, `s`, a single quote and a newline returns the two words C3 and `cd`,
not the one word C3 A0 `cd`: the tokeniser ends a word at the byte A0. -/
theorem single_quoted_word_cut :
    ([0xC3, 0xA0] : List Nat).any needsQuoting = false ∧
    (∀ b ∈ ([0x63, 0x64] : List Nat), b ≠ 0x27) ∧
    Tokenise (New (bytesReader
        ([0xC3, 0xA0] ++ [0x27] ++ [0x63, 0x64] ++ [0x27] ++ [] ++ [0x0A])))
      = some (([[0xC3], [0x63, 0x64]], Option.none), New []) ∧
    ([[0xC3], [0x63, 0x64]] : List (List Nat)) ≠ [[0xC3, 0xA0] ++ [0x63, 0x64] ++ []] := by
  decide

/-- C15: for every byte string `s`, `Tokenise` reading a double quote, `s` with a backslash
put before each double quote and each backslash, a double quote and a newline returns the
single word `s`; single quotes, whitespace and newlines in `s` are kept as they are. -/
theorem double_quoted_word (s : List Nat) :
    Tokenise (New (bytesReader ([0x22] ++ escapeDouble s ++ [0x22] ++ [0x0A])))
      = some (([s], Option.none), New []) := by
  have r1 := Runs_open_quote 0x22 quoteType.double (Or.inr ⟨rfl, rfl⟩) false [] []
    (bytesReader ([0x22] ++ escapeDouble s ++ [0x22] ++ [0x0A]))
  have r2 := Runs_double_body s [] [] (bytesReader ([0x22] ++ escapeDouble s ++ [0x22] ++ [0x0A]))
  have r3 := Runs_close_quote 0x22 quoteType.double (Or.inr ⟨rfl, rfl⟩) ([] ++ s) []
    (bytesReader ([0x22] ++ escapeDouble s ++ [0x22] ++ [0x0A]))
  have hrun := Runs_append _ _ _ _ _ (Runs_append _ _ _ _ _ r1 r2) r3
  have := Tokenise_bytes _ (New (bytesReader ([0x22] ++ escapeDouble s ++ [0x22] ++ [0x0A])))
    _ [] (by simp [New]) (wordClosed_New _) hrun rfl rfl
  rw [this]
  simp [endWord]

/-! ## Calls that fail -/

/-- C16, the claim as stated fails: the source delivers `a`, space, `b`, then a read that
fails without a byte, then `c` and a newline. The first call fails with the error, and the
second call returns `a` and `bc`: the word and the byte consumed before the failure are in
its result. -/
theorem failed_line_counterexample :
    Tokenise (New [⟨1, 0x61, Option.none⟩, ⟨1, 0x20, Option.none⟩, ⟨1, 0x62, Option.none⟩,
        ⟨0, 0, some (Error.other 1)⟩, ⟨1, 0x63, Option.none⟩, ⟨1, 0x0A, Option.none⟩])
      = some (([], some (Error.other 1)),
          ⟨true, false, quoteType.none, [0x62], [[0x61]],
            [⟨1, 0x63, Option.none⟩, ⟨1, 0x0A, Option.none⟩]⟩) ∧
    Tokenise ⟨true, false, quoteType.none, [0x62], [[0x61]],
        [⟨1, 0x63, Option.none⟩, ⟨1, 0x0A, Option.none⟩]⟩
      = some (([[0x61], [0x62, 0x63]], Option.none), New []) := by
  decide

/-- C16, amended: when a read reports an error before the line is completed, the failing
call returns the error with an empty word list and leaves the tokeniser in the state the
bytes consumed so far have produced, in front of the rest of the source; the next call on
that tokeniser returns what one call on the source without the failing read returns, so it
goes on with the same line. -/
theorem failed_line_is_kept (t : Tokeniser) (pre : List ReadResult) (r : ReadResult)
    (post : List ReadResult) (e : Error) (hr : t.reader = pre ++ r :: post)
    (hgood : ∀ x ∈ pre, x.err = Option.none) (hq : quiet t (delivered pre) = true)
    (he : r.err = some e) :
    Tokenise t = some (([], some e), (feed t (delivered pre)).setReader post) ∧
    Tokenise ((feed t (delivered pre)).setReader post) = Tokenise (t.setReader (pre ++ post)) :=
  ⟨Tokenise_error_state t pre r post e hr hgood hq he, Tokenise_resume t pre post hgood hq⟩

/-- Witness for C16, amended: the source of the counterexample. -/
theorem failed_line_is_kept_witness :
    Tokenise (New [⟨1, 0x61, Option.none⟩, ⟨1, 0x20, Option.none⟩, ⟨1, 0x62, Option.none⟩,
        ⟨0, 0, some (Error.other 1)⟩, ⟨1, 0x63, Option.none⟩, ⟨1, 0x0A, Option.none⟩])
      = some (([], some (Error.other 1)),
          (feed (New [⟨1, 0x61, Option.none⟩, ⟨1, 0x20, Option.none⟩, ⟨1, 0x62, Option.none⟩,
              ⟨0, 0, some (Error.other 1)⟩, ⟨1, 0x63, Option.none⟩, ⟨1, 0x0A, Option.none⟩])
            (delivered [⟨1, 0x61, Option.none⟩, ⟨1, 0x20, Option.none⟩,
              ⟨1, 0x62, Option.none⟩])).setReader
            [⟨1, 0x63, Option.none⟩, ⟨1, 0x0A, Option.none⟩]) :=
  (failed_line_is_kept
    (New [⟨1, 0x61, Option.none⟩, ⟨1, 0x20, Option.none⟩, ⟨1, 0x62, Option.none⟩,
      ⟨0, 0, some (Error.other 1)⟩, ⟨1, 0x63, Option.none⟩, ⟨1, 0x0A, Option.none⟩])
    [⟨1, 0x61, Option.none⟩, ⟨1, 0x20, Option.none⟩, ⟨1, 0x62, Option.none⟩]
    ⟨0, 0, some (Error.other 1)⟩ [⟨1, 0x63, Option.none⟩, ⟨1, 0x0A, Option.none⟩]
    (Error.other 1) rfl (by decide) (by decide) rfl).1

/-- C19: `readByte` steps over the reads that return `n = 0` without error and returns the
byte of the first read with `n > 0`, together with the error of that read; and when a read
delivers a byte together with an error, `Tokenise` fails with that error and the byte is
not given to the tokeniser, so a line whose newline comes in the same read as the error
(here `a`, then newline with `io.EOF`) is not returned. -/
theorem readByte_first_byte (t : Tokeniser) (zeros pre : List ReadResult) (r : ReadResult)
    (post : List ReadResult) (hn : r.n ≠ 0) :
    ((∀ x ∈ zeros, x.n = 0 ∧ x.err = Option.none) → t.reader = zeros ++ r :: post →
      t.readByte = (r.b, r.err, t.setReader post)) ∧
    (∀ e, (∀ x ∈ pre, x.err = Option.none) → quiet t (delivered pre) = true →
      t.reader = pre ++ r :: post → r.err = some e →
      Tokenise t = some (([], some e), (feed t (delivered pre)).setReader post)) ∧
    Tokenise (New [⟨1, 0x61, Option.none⟩, ⟨1, 0x0A, some Error.EOF⟩])
      = some (([], some Error.EOF), ⟨true, false, quoteType.none, [0x61], [], []⟩) := by
  refine ⟨?_, ?_, by decide⟩
  · intro hz hr
    simp only [readByte, hr, readByteLoop_skip zeros 0 r post hz hn]
    rfl
  · intro e hgood hq hr he
    exact Tokenise_error_state t pre r post e hr hgood hq he

/-- Witness for C19: two empty reads, then the byte `a`. -/
theorem readByte_first_byte_witness :
    readByte (New [⟨0, 0, Option.none⟩, ⟨0, 0, Option.none⟩, ⟨1, 0x61, Option.none⟩])
      = (0x61, Option.none,
          (New [⟨0, 0, Option.none⟩, ⟨0, 0, Option.none⟩, ⟨1, 0x61, Option.none⟩]).setReader []) :=
  (readByte_first_byte
    (New [⟨0, 0, Option.none⟩, ⟨0, 0, Option.none⟩, ⟨1, 0x61, Option.none⟩])
    [⟨0, 0, Option.none⟩, ⟨0, 0, Option.none⟩] [] ⟨1, 0x61, Option.none⟩ [] (by decide)).1
    (by decide) rfl

/-! ## Lines and renderings -/

/-- C18: for a message whose tag has no single quote, double quote, backslash or newline,
whatever its arguments are, a fresh tokeniser given the bytes of `Pack` one at a time signals
a finished line at the last byte and at no byte before it, and is then unquoted with the
escape flag clear. -/
theorem Pack_is_one_line (tag : List Nat) (args : List (List Nat)) (rd : List ReadResult)
    (htag : ∀ b ∈ tag, b ≠ 0x27 ∧ b ≠ 0x22 ∧ b ≠ 0x5C ∧ b ≠ 0x0A) :
    ∃ body, Pack (tag :: args) = some (body ++ [0x0A]) ∧
      (∀ pre b post, body = pre ++ b :: post → ((feed (New rd) pre).tokeniseByte b).1 = false) ∧
      ((feed (New rd) body).tokeniseByte 0x0A).1 = true ∧
      (feed (New rd) (body ++ [0x0A])).currentQuoteType = quoteType.none ∧
      (feed (New rd) (body ++ [0x0A])).escapeNextChar = false := by
  obtain ⟨t1, r1, u1⟩ := Runs_keeps_unquoted tag htag (New rd) ⟨rfl, rfl⟩
  obtain ⟨t2, r2, u2⟩ := Runs_args_unquoted args t1 u1
  have hrun := Runs_append _ _ _ _ _ r1 r2
  have hend : t2.isLineEnd 0x0A = true := (isLineEnd_iff _ _).2 ⟨rfl, u2.1, u2.2⟩
  refine ⟨tag ++ args.flatMap (fun a => [0x20] ++ enc a), Pack_eq tag args, ?_, ?_, ?_⟩
  · intro pre b post hbody
    apply quiet_split _ pre b post
    rw [← hbody]
    exact hrun.2
  · rw [hrun.1, tokeniseByte_flag]
    exact hend
  · rw [feed_append, hrun.1]
    simp only [feed]
    rw [tokeniseByte_lineEnd _ _ hend]
    exact endWord_isUnquoted t2 u2

/-- Witness for C18: the tag `a b` and the arguments quote-newline, empty, and U+00A0. -/
theorem Pack_is_one_line_witness :
    ∃ body, Pack [[0x61, 0x20, 0x62], [0x27, 0x0A], [], [0xC2, 0xA0]] = some (body ++ [0x0A]) ∧
      (∀ pre b post, body = pre ++ b :: post → ((feed (New []) pre).tokeniseByte b).1 = false) ∧
      ((feed (New []) body).tokeniseByte 0x0A).1 = true ∧
      (feed (New []) (body ++ [0x0A])).currentQuoteType = quoteType.none ∧
      (feed (New []) (body ++ [0x0A])).escapeNextChar = false :=
  Pack_is_one_line [0x61, 0x20, 0x62] [[0x27, 0x0A], [], [0xC2, 0xA0]] [] (by decide)

/-- C17: `Message.String` of a non-empty message is its words joined by single spaces,
nothing quoted or escaped; and `Pack` of the message is that string followed by one newline
exactly when no word after the tag has an ASCII whitespace byte, a single quote, a double
quote or a backslash. -/
theorem String_and_Pack (m0 : List Nat) (rest : List (List Nat)) :
    Message.String (m0 :: rest) = some (List.intercalate [0x20] (m0 :: rest)) ∧
    (Pack (m0 :: rest) = (Message.String (m0 :: rest)).map (fun str => str ++ [0x0A]) ↔
      ∀ a ∈ rest, a.any needsQuoting = false) := by
  have hS : Message.String (m0 :: rest) = some (m0 ++ rest.flatMap (fun a => [0x20] ++ a)) := by
    simp only [Message.String, stringLoop_eq]
  refine ⟨by rw [hS, intercalate_space], ?_⟩
  rw [hS, Pack_eq]
  simp only [Option.map_some', Option.some.injEq, List.append_assoc, List.append_cancel_left_eq,
    List.append_cancel_right_eq]
  constructor
  · intro h
    exact (flatMap_enc_length rest).2 (by rw [h])
  · intro h
    apply List.flatMap_congr
    intro a ha
    rw [enc_eq_self a (h a ha)]

/-! ## Features -/

/-- C20: for each of the nine feature constants, `LookupFeature` of its `String` is the
constant again; and for every string that is not one of the nine names of `ftStrings`,
`LookupFeature` returns `FtUnknown`. -/
theorem LookupFeature_String :
    (∀ f ∈ [FtUnknown, FtFileLoad, FtPlayStop, FtSeek, FtEnd, FtTimeReport, FtPlaylist,
        FtPlaylistAutoAdvance, FtPlaylistTextItems],
      (Feature.String f).map LookupFeature = some f) ∧
    (∀ word : List Nat, word ∉ ftStrings → LookupFeature word = FtUnknown) := by
  refine ⟨by decide, ?_⟩
  intro word h
  exact lookupLoop_not_mem word ftStrings 0 h

end Bifrost
